import Mathlib

/-!
# excmd: declarative command-line definition and parsing

A shallow embedding of `src/src/excmd.h`.

* `std::string` and the C strings of `argv` are lists of characters (`Str`).
* Heap objects reached through pointers (`option *`, `option_group *`,
  `command *`) are immutable while `parse` runs, so they are embedded by value;
  a null pointer is `none`.
* `option::parser` is a nullable pointer to an object of the value-conversion
  layer (`excmd_value_parser.h`, not part of the sources).  It is embedded as an
  optional handle; what `parser->parse(text)` answers is the parameter `vp` of
  the parsing functions, and every call made is logged in `machine.delivered`.
* `int`/`size_t` counters are natural numbers: they are bounded by `argc + 1`
  and by container sizes, so no wrap-around is reachable.
* Exceptions, and reads outside a container, are explicit results
  (`Except fault`).
-/

set_option autoImplicit false

deriving instance DecidableEq for Except

namespace excmd

/-- A character string (`std::string`, or a NUL-terminated `char *`). -/
abbrev Str := List Char

/-! ## Data model (excmd.h lines 12-52) -/

/-- The struct `option`.  The field `parser` is the nullable `value_parser *`:
`none` is `nullptr`, `some h` points at the value-conversion object `h`. -/
structure option where
  optional : Bool
  name : Str
  shortName : Str
  longName : Str
  description : Str
  parser : Option Nat
  deriving DecidableEq, Repr

/-- The method `option::requires_value`: `parser != nullptr`. -/
def option.requires_value (opt : option) : Bool :=
  opt.parser.isSome

/-- The struct `option_group`. -/
structure option_group where
  name : Str
  options : List option
  deriving DecidableEq, Repr

/-- The struct `command`; `groups` are the attached (non-owned) groups. -/
structure command where
  name : Str
  arguments : List option
  groups : List option_group
  deriving DecidableEq, Repr

/-- The registry part of struct `parser`: the global group, the named groups
and the commands. -/
structure parser where
  global : option_group
  groups : List option_group
  commands : List command
  deriving DecidableEq, Repr

/-- Modelled from the spec: the exception types of `excmd_exception.h` (absent
from the sources), one constructor per exception class thrown in `excmd.h`, each
carrying the constructor arguments given at the `throw` site. -/
inductive exception where
  | invalid_option_name (name : Str)
  | option_not_exists (name : Str)
  | missing_value (name : Str)
  | not_expecting_value (name : Str)
  | command_missing_argument (cmd : Str) (arg : Str)
  deriving DecidableEq, Repr

/-- Ways a run ends without returning: a thrown exception, a read outside a
container (undefined behaviour in the source), or an exhausted iteration
budget of the embedding. -/
inductive fault where
  | thrown (e : exception)
  | out_of_range
  | out_of_fuel
  deriving DecidableEq, Repr

/-! ## String helpers -/

/-- The call `s.substr(pos, n)` for `pos ≤ s.size()`. -/
def substr (s : Str) (pos n : Nat) : Str :=
  (s.drop pos).take n

/-- The call `s.substr(pos)` for `pos ≤ s.size()`. -/
def substr_from (s : Str) (pos : Nat) : Str :=
  s.drop pos

/-- The call `s.find_first_of(c)`; `none` is `std::string::npos`. -/
def find_first_of : Str → Char → Option Nat
  | [], _ => none
  | x :: xs, c => if x = c then some 0 else (find_first_of xs c).map (· + 1)

/-- The order of `std::less<std::string>`: lexicographic on character codes. -/
def str_lt : Str → Str → Bool
  | [], [] => false
  | [], _ :: _ => true
  | _ :: _, [] => false
  | a :: s, b :: t =>
    if a.toNat < b.toNat then true
    else if b.toNat < a.toNat then false
    else str_lt s t

/-! ## The map `std::map<std::string, option *>` -/

/-- The assignment `m[k] = v` on a `std::map`, kept as a key-ordered
association list: an existing key is overwritten, a new key is inserted at its
place in the order. -/
def map_assign : List (Str × option) → Str → option → List (Str × option)
  | [], k, v => [(k, v)]
  | (k1, v1) :: m, k, v =>
    if k = k1 then (k, v) :: m
    else if str_lt k k1 then (k, v) :: (k1, v1) :: m
    else (k1, v1) :: map_assign m k v

/-- The call `m.find(k)`; `none` is `m.end()`. -/
def map_find : List (Str × option) → Str → Option option
  | [], _ => none
  | (k1, v1) :: m, k => if k1 = k then some v1 else map_find m k

/-! ## Builders (excmd.h lines 54-117) -/

/-- The method `option_group_adder::add_option(name, args...)` on the group
pointed to by the adder.  `description` and `parser` stand for what
`get_description` and `get_value_parser` (of `excmd_meta.h`, absent) extract
from the modifier arguments. -/
def add_option (group : option_group) (name : Str) (description : Str)
    (parser : Option Nat) : Except exception option_group :=
  let opt : option := ⟨false, [], [], [], description, parser⟩
  let named : Except exception option :=
    match find_first_of name ',' with
    | some cpos =>
      let left := substr name 0 cpos
      let right := substr_from name (cpos + 1)
      if left.length = 1 then
        .ok { opt with shortName := left, longName := right }
      else if right.length = 1 then
        .ok { opt with shortName := right, longName := left }
      else
        .error (.invalid_option_name name)
    | none =>
      if name.length = 1 then .ok { opt with shortName := name }
      else .ok { opt with longName := name }
  match named with
  | .error e => .error e
  | .ok opt =>
    let opt := { opt with name := if opt.longName.isEmpty then opt.shortName else opt.longName }
    .ok { group with options := group.options ++ [opt] }

/-- The method `command_adder::add_option_group(group)`. -/
def add_option_group (cmd : command) (group : option_group) : command :=
  { cmd with groups := cmd.groups ++ [group] }

/-- The method `command_adder::add_argument(name, args...)`; `optional` stands
for `get_optional<Types...>::value`. -/
def add_argument (cmd : command) (name : Str) (description : Str)
    (parser : Option Nat) (optional : Bool) : command :=
  let opt : option := ⟨optional, name, [], [], description, parser⟩
  { cmd with arguments := cmd.arguments ++ [opt] }

/-! ## Option state (excmd.h lines 119-148) -/

/-- The struct `option_state`. -/
structure option_state where
  args_set : Nat
  cmd : Option command
  set_options : List (Str × option)
  extra_arguments : List Str
  deriving DecidableEq, Repr

/-- The method `option_state::has`. -/
def option_state.has (state : option_state) (name : Str) : Bool :=
  match state.cmd with
  | some c =>
    if c.name = name then true
    else (map_find state.set_options name).isSome
  | none => (map_find state.set_options name).isSome

/-- The default-constructed `option_state`. -/
def option_state.init : option_state :=
  ⟨0, none, [], []⟩

/-! ## The option pattern (excmd.h line 203)

`--([[:alnum:]][-_[:alnum:]]+)(=(.*))?|-([a-zA-Z]+)`, applied with
`std::regex_match` (the whole token must match), ECMAScript grammar, "C"
locale. -/

/-- The class `[[:alnum:]]`. -/
def is_alnum (c : Char) : Bool :=
  c.isAlphanum

/-- The class `[-_[:alnum:]]`. -/
def is_name_char (c : Char) : Bool :=
  c = '-' || c = '_' || is_alnum c

/-- The class `[a-zA-Z]`. -/
def is_letter (c : Char) : Bool :=
  c.isAlpha

/-- The atom `.`: any character except the line terminators. -/
def is_dot (c : Char) : Bool :=
  c ≠ '\n' && c ≠ '\r'

/-- The sub-matches of a `std::match_results` that `parse` inspects.
`empty` is `result.empty()` (the match failed); `sub1`, `sub3`, `sub4` are
`result[1]`, `result[3]`, `result[4]`, the empty string when the group did not
take part in the match. -/
structure match_results where
  empty : Bool
  sub1 : Str
  sub3 : Str
  sub4 : Str
  deriving DecidableEq, Repr

/-- First alternative on the text after the leading `--`: the name is the
longest run of name characters (no shorter run can be followed by `=` or by the
end of the token), at least two long and starting with an alphanumeric; then
either the token ends, or `=` and a value without line terminators follow.
Returns `(result[1], result[3])`. -/
def match_long_body (rest : Str) : Option (Str × Str) :=
  let name := rest.takeWhile is_name_char
  let tail := rest.dropWhile is_name_char
  match name with
  | c :: _ :: _ =>
    if is_alnum c then
      match tail with
      | [] => some (name, [])
      | e :: value =>
        if e = '=' && value.all is_dot then some (name, value) else none
    else none
  | _ => none

/-- First alternative, `--([[:alnum:]][-_[:alnum:]]+)(=(.*))?`. -/
def match_long (s : Str) : Option (Str × Str) :=
  match s with
  | a :: b :: rest => if a = '-' && b = '-' then match_long_body rest else none
  | _ => none

/-- Second alternative, `-([a-zA-Z]+)`.  Returns `result[4]`. -/
def match_short (s : Str) : Option Str :=
  match s with
  | a :: c :: rest =>
    if a = '-' && (c :: rest).all is_letter then some (c :: rest) else none
  | _ => none

/-- The call `std::regex_match(token, result, option_matcher)`. -/
def regex_match (token : Str) : match_results :=
  match match_long token with
  | some (name, value) => ⟨false, name, value, []⟩
  | none =>
    match match_short token with
    | some letters => ⟨false, [], [], letters⟩
    | none => ⟨true, [], [], []⟩

/-! ## Parser engine (excmd.h lines 177-347) -/

/-- What `parse` mutates: the `option_state` under construction, the cursor
`pos`, and the log of the raw strings handed to value-conversion objects
(`parser->parse(value)`), oldest first. -/
structure machine where
  state : option_state
  pos : Nat
  delivered : List (Nat × Str)
  deriving DecidableEq, Repr

/-- The method `parser::is_valid_value(argc, argv, i)`.  `argv[i][0]` of an
empty C string is its terminating NUL. -/
def is_valid_value (argc : Nat) (argv : List Str) (i : Nat) : Except fault Bool :=
  if i ≥ argc then .ok false
  else
    match argv[i]? with
    | none => .error .out_of_range
    | some token =>
      if token.headD (Char.ofNat 0) = '-' then .ok false
      else .ok true

/-- The method `parser::set_option(state, opt, value)`; the source name is a
reserved word here.  Returns the `bool` result and the updated machine. -/
def setOption (vp : Nat → Str → Bool) (m : machine) (opt : option) (value : Str) :
    Bool × machine :=
  match opt.parser with
  | some h =>
    let m1 : machine := { m with delivered := m.delivered ++ [(h, value)] }
    if !vp h value then (false, m1)
    else
      (true, { m1 with state := { m1.state with
        set_options := map_assign m1.state.set_options opt.name opt } })
  | none =>
    (true, { m with state := { m.state with
      set_options := map_assign m.state.set_options opt.name opt } })

/-- The method `parser::find_command(name)`. -/
def find_command_in : List command → Str → Option command
  | [], _ => none
  | c :: cs, name => if c.name = name then some c else find_command_in cs name

/-- The method `parser::find_command(name)` on a registry. -/
def find_command (p : parser) (name : Str) : Option command :=
  find_command_in p.commands name

/-- The loop of `parser::find_option(name, option_group *)`. -/
def find_option_in : List option → Str → Option option
  | [], _ => none
  | o :: os, name =>
    if o.shortName = name || o.longName = name then some o
    else find_option_in os name

/-- The method `parser::find_option(name, option_group *)`. -/
def find_option_in_group (group : option_group) (name : Str) : Option option :=
  find_option_in group.options name

/-- The loop over `activeCommand->groups` in `find_option(name, command *)`. -/
def find_option_in_groups : List option_group → Str → Option option
  | [], _ => none
  | g :: gs, name =>
    match find_option_in_group g name with
    | some o => some o
    | none => find_option_in_groups gs name

/-- The method `parser::find_option(name, command *activeCommand)`. -/
def find_option (p : parser) (name : Str) (activeCommand : Option command) :
    Option option :=
  match find_option_in_group p.global name with
  | some o => some o
  | none =>
    match activeCommand with
    | some c => find_option_in_groups c.groups name
    | none => none

/-- The positional branch of `parse` (lines 210-224), before `++pos`. -/
def parse_positional (vp : Nat → Str → Bool) (p : parser) (m : machine)
    (positional : Str) : Except fault machine :=
  match m.state.cmd with
  | none =>
    let cmd := find_command p positional
    if cmd.isNone && p.commands.length ≠ 0 then
      .error (.thrown (.option_not_exists positional))
    else
      .ok { m with state := { m.state with cmd := cmd } }
  | some c =>
    if p.commands.length = 0 || m.state.args_set ≥ c.arguments.length then
      .ok { m with state := { m.state with
        extra_arguments := m.state.extra_arguments ++ [positional] } }
    else
      match c.arguments[m.state.args_set]? with
      | none => .error .out_of_range
      | some arg =>
        .ok (setOption vp
          { m with state := { m.state with args_set := m.state.args_set + 1 } }
          arg positional).2

/-- The `for` loop over a short-option cluster (lines 230-257), started at
index `i` with an iteration budget `fuel`; `short_options.size()` iterations
always suffice. -/
def parse_short (vp : Nat → Str → Bool) (p : parser) (argc : Nat) (argv : List Str)
    (short_options : Str) : Nat → Nat → machine → Except fault machine
  | 0, i, m => if i < short_options.length then .error .out_of_fuel else .ok m
  | fuel + 1, i, m =>
    if i < short_options.length then
      let name := substr short_options i 1
      match find_option p name m.state.cmd with
      | none => .error (.thrown (.option_not_exists name))
      | some opt =>
        if !opt.requires_value then
          parse_short vp p argc argv short_options fuel (i + 1) (setOption vp m opt []).2
        else if i = short_options.length - 1 then
          match is_valid_value argc argv (m.pos + 1) with
          | .error f => .error f
          | .ok false => .error (.thrown (.missing_value opt.name))
          | .ok true =>
            match argv[m.pos + 1]? with
            | none => .error .out_of_range
            | some value =>
              let m1 := (setOption vp m opt value).2
              parse_short vp p argc argv short_options fuel (i + 1)
                { m1 with pos := m1.pos + 1 }
        else if i = 0 then
          let value := substr_from short_options (i + 1)
          .ok (setOption vp m opt value).2
        else
          .error (.thrown (.missing_value opt.name))
    else .ok m

/-- The long-option branch of `parse` (lines 258-288), before `++pos`. -/
def parse_long (vp : Nat → Str → Bool) (p : parser) (argc : Nat) (argv : List Str)
    (result : match_results) (m : machine) : Except fault machine :=
  let name := result.sub1
  match find_option p name m.state.cmd with
  | none => .error (.thrown (.option_not_exists name))
  | some opt =>
    if result.sub3.length ≠ 0 then
      if !opt.requires_value then
        .error (.thrown (.not_expecting_value opt.name))
      else
        let value := result.sub3
        .ok (setOption vp m opt value).2
    else
      if !opt.requires_value then
        .ok (setOption vp m opt []).2
      else
        match is_valid_value argc argv (m.pos + 1) with
        | .error f => .error f
        | .ok false => .error (.thrown (.missing_value opt.name))
        | .ok true =>
          match argv[m.pos + 1]? with
          | none => .error .out_of_range
          | some value =>
            let m1 := (setOption vp m opt value).2
            .ok { m1 with pos := m1.pos + 1 }

/-- The statement `++pos` that closes an iteration (line 291), not reached when
the body threw. -/
def next_pos : Except fault machine → Except fault machine
  | .error f => .error f
  | .ok m => .ok { m with pos := m.pos + 1 }

/-- One iteration of the `while (pos != argc)` loop (lines 207-291). -/
def parse_step (vp : Nat → Str → Bool) (p : parser) (argc : Nat) (argv : List Str)
    (m : machine) : Except fault machine :=
  match argv[m.pos]? with
  | none => .error .out_of_range
  | some token =>
    let result := regex_match token
    let body : Except fault machine :=
      if result.empty then
        parse_positional vp p m token
      else if result.sub4.length ≠ 0 then
        parse_short vp p argc argv result.sub4 result.sub4.length 0 m
      else if result.sub1.length ≠ 0 then
        parse_long vp p argc argv result m
      else .ok m
    next_pos body

/-- The loop `while (pos != argc)` with an iteration budget `fuel`. -/
def parse_loop (vp : Nat → Str → Bool) (p : parser) (argc : Nat) (argv : List Str) :
    Nat → machine → Except fault machine
  | 0, m => if m.pos ≠ argc then .error .out_of_fuel else .ok m
  | fuel + 1, m =>
    if m.pos ≠ argc then
      match parse_step vp p argc argv m with
      | .error f => .error f
      | .ok m1 => parse_loop vp p argc argv fuel m1
    else .ok m

/-- The loop of the end-of-input check (lines 296-300) over the arguments from
index `args_set` on: the first one not marked optional is reported. -/
def first_required : List option → Option option
  | [] => none
  | a :: as => if !a.optional then some a else first_required as

/-- The end-of-input check (lines 294-301). -/
def check_arguments (state : option_state) : Except fault Unit :=
  match state.cmd with
  | some c =>
    if state.args_set < c.arguments.length then
      match first_required (c.arguments.drop state.args_set) with
      | some a => .error (.thrown (.command_missing_argument c.name a.name))
      | none => .ok ()
    else .ok ()
  | none => .ok ()

/-- The machine `parse` starts from: empty state, `pos = 1`. -/
def machine.init : machine :=
  ⟨option_state.init, 1, []⟩

/-- The method `parser::parse(argc, argv)`, returning the final machine: the
loop, then the end-of-input check.  The loop runs at most `argc - 1` times when
`argc` is the length of `argv`; the budget `argc + 1` also lets a call with
`argc = 0` reach its first read, which is out of range. -/
def parse_machine (vp : Nat → Str → Bool) (p : parser) (argc : Nat) (argv : List Str) :
    Except fault machine :=
  match parse_loop vp p argc argv (argc + 1) machine.init with
  | .error f => .error f
  | .ok m =>
    match check_arguments m.state with
    | .error f => .error f
    | .ok _ => .ok m

/-- The method `parser::parse(argc, argv)`: the returned `option_state`. -/
def parse (vp : Nat → Str → Bool) (p : parser) (argc : Nat) (argv : List Str) :
    Except fault option_state :=
  match parse_machine vp p argc argv with
  | .error f => .error f
  | .ok m => .ok m.state

/-! ## Help formatter (excmd.h lines 349-462)

A `std::ostringstream` is the string written so far; `os << x` appends. -/

/-- The manipulator `std::endl` written to a string stream. -/
def endl : Str :=
  ['\n']

/-- The method `option::get_default_value(str)`: `none` is the result `false`,
`some d` is `true` with `str = d`.  `dv` stands for what
`parser->get_default_value` of the value-conversion object answers. -/
def option.get_default_value (dv : Nat → Option Str) (opt : option) : Option Str :=
  match opt.parser with
  | none => none
  | some h => dv h

/-- The body of the loop of `format_option_group` (lines 355-375), appending
to `os`. -/
def format_option_block (dv : Nat → Option Str) (os : Str) (o : option) : Str :=
  let os := os ++ "  ".toList
  let os := if o.shortName.length ≠ 0 then os ++ "-".toList ++ o.shortName ++ " ".toList else os
  let os := if o.longName.length ≠ 0 then os ++ "--".toList ++ o.longName else os
  let os :=
    if o.requires_value then
      os ++ "=<".toList ++ (if o.longName.isEmpty then o.shortName else o.longName) ++ ">".toList
    else os
  let os :=
    match o.get_default_value dv with
    | some default_value => os ++ " [default=".toList ++ default_value ++ "]".toList
    | none => os
  let os := os ++ endl
  os ++ "    ".toList ++ o.description ++ endl

/-- The method `parser::format_option_group(group)`. -/
def format_option_group (dv : Nat → Option Str) (group : option_group) : Str :=
  let os : Str := group.name ++ ":".toList ++ endl
  group.options.foldl (format_option_block dv) os

/-- The body of the inner loop of `format_command` (lines 388-402), appending
to `os`. -/
def format_command_option (os : Str) (o : option) : Str :=
  let os := os ++ " [".toList
  let os := if o.name.length = 1 then os ++ "-".toList else os ++ "--".toList
  let os := os ++ o.name
  let os := if o.requires_value then os ++ "=<".toList ++ o.name ++ ">".toList else os
  os ++ "]".toList

/-- The method `parser::format_command(cmd)`. -/
def format_command (cmd : command) : Str :=
  let os : Str := cmd.name
  let os := cmd.groups.foldl (fun os group => group.options.foldl format_command_option os) os
  cmd.arguments.foldl (fun os argument => os ++ " <".toList ++ argument.name ++ ">".toList) os

/-- The method `parser::format_help(name)`. -/
def format_help (dv : Nat → Option Str) (p : parser) (name : Str) : Str :=
  let os : Str := []
  let os :=
    if p.commands.length ≠ 0 then
      p.commands.foldl
        (fun os cmd => os ++ "  ".toList ++ name ++ " ".toList ++ format_command cmd ++ endl)
        (os ++ "Usage:".toList ++ endl)
    else os
  let os := os ++ format_option_group dv p.global ++ endl
  p.groups.foldl (fun os group => os ++ format_option_group dv group ++ endl) os

/-- The method `parser::format_help(name, cmd_name)`. -/
def format_help_command (dv : Nat → Option Str) (p : parser) (name cmd_name : Str) : Str :=
  let os : Str := []
  match find_command p cmd_name with
  | none =>
    let os := os ++ "Command ".toList ++ cmd_name ++ " not found.".toList ++ endl
    os ++ format_help dv p name
  | some cmd =>
    let os := os ++ "Usage:".toList ++ endl
    let os := os ++ "  ".toList ++ name ++ " ".toList ++ format_command cmd ++ endl
    let os := os ++ format_option_group dv p.global ++ endl
    cmd.groups.foldl (fun os group => os ++ format_option_group dv group ++ endl) os

/-! ## Vocabulary of the specification -/

/-- The shape `[[:alnum:]][-_[:alnum:]]+` of a long-option name: at least two
characters, the first alphanumeric, the others alphanumeric, `-` or `_`. -/
def is_long_name (name : Str) : Bool :=
  match name with
  | c :: d :: rest => is_alnum c && (d :: rest).all is_name_char
  | _ => false

/-- True when every letter of `cs` resolves, under the active command `cmd`,
to an option without a value-conversion object (a boolean flag). -/
def all_flags (p : parser) (cmd : Option command) (cs : List Char) : Bool :=
  cs.all fun c =>
    match find_option p [c] cmd with
    | some o => !o.requires_value
    | none => false

/-- The machine after the cluster-loop iterations for the letters `cs`, each
resolving to a boolean flag: `set_option(state, opt)` for each in turn. -/
def run_flags (vp : Nat → Str → Bool) (p : parser) : machine → List Char → machine
  | m, [] => m
  | m, c :: cs =>
    match find_option p [c] m.state.cmd with
    | some o => run_flags vp p (setOption vp m o []).2 cs
    | none => run_flags vp p m cs

/-! ## Sample registries -/

/-- A value-conversion layer that accepts every raw string. -/
def accept_all : Nat → Str → Bool :=
  fun _ _ => true

/-- A value-conversion layer that rejects every raw string. -/
def reject_all : Nat → Str → Bool :=
  fun _ _ => false

/-- A registry without commands: global flags `a`, `b` and `v,version`, and
global value-requiring options `c` and `o,opt`. -/
def flat_registry : parser :=
  ⟨⟨"Global Options".toList,
      [⟨false, "a".toList, "a".toList, [], [], none⟩,
       ⟨false, "b".toList, "b".toList, [], [], none⟩,
       ⟨false, "c".toList, "c".toList, [], [], some 0⟩,
       ⟨false, "opt".toList, "o".toList, "opt".toList, [], some 1⟩,
       ⟨false, "version".toList, "v".toList, "version".toList, [], none⟩]⟩,
    [], []⟩

/-- The group `JIT Options` of `example.cpp`. -/
def jit_options : option_group :=
  ⟨"JIT Options".toList,
    [⟨false, "jit".toList, [], "jit".toList, "Enables the JIT engine.".toList, none⟩,
     ⟨false, "jit-debug".toList, [], "jit-debug".toList,
       "Verify JIT implementation against interpreter.".toList, none⟩]⟩

/-- The group `Log Options` of `example.cpp`; `log-level` is value-requiring
(handle 0). -/
def log_options : option_group :=
  ⟨"Log Options".toList,
    [⟨false, "log-file".toList, [], "log-file".toList,
       "Redirect log output to file.".toList, none⟩,
     ⟨false, "log-async".toList, [], "log-async".toList,
       "Enable asynchronous logging.".toList, none⟩,
     ⟨false, "log-level".toList, [], "log-level".toList,
       "Only display logs with severity equal to or greater than this level.".toList,
       some 0⟩]⟩

/-- The group `System Options` of `example.cpp`; `sys-path` is value-requiring
(handle 1). -/
def sys_options : option_group :=
  ⟨"System Options".toList,
    [⟨false, "sys-path".toList, [], "sys-path".toList,
       "Where to locate any external system files.".toList, some 1⟩]⟩

/-- The argument `game directory` of the command `play` (handle 3). -/
def game_directory : option :=
  ⟨false, "game directory".toList, [], [], [], some 3⟩

/-- The command `play` of `example.cpp`. -/
def play_command : command :=
  ⟨"play".toList, [game_directory], [jit_options, log_options, sys_options]⟩

/-- The registry built by `example.cpp`. -/
def example_registry : parser :=
  ⟨⟨"Global Options".toList,
      [⟨false, "version".toList, "v".toList, "version".toList, "Show version.".toList, none⟩,
       ⟨false, "help".toList, "h".toList, "help".toList, "Show help.".toList, none⟩]⟩,
    [jit_options, log_options, sys_options],
    [⟨"help".toList, [⟨true, "help-command".toList, [], [], [], some 2⟩], []⟩,
     play_command,
     ⟨"fuzztest".toList, [], []⟩,
     ⟨"hwtest".toList, [], [jit_options, log_options]⟩]⟩

/-! ## Resolution order and reachable machines, in the words of the specification -/

/-- The name test of the resolver: the short name or the long name equals
`name`. -/
def has_name (name : Str) (o : option) : Bool :=
  o.shortName = name || o.longName = name

/-- The options of a list of groups: groups in list order, options in
registration order. -/
def group_options : List option_group → List option
  | [] => []
  | g :: gs => g.options ++ group_options gs

/-- The search order of the specification: the options of the global group,
then, only when a command is active, the options of its attached groups in
attachment order. -/
def search_order (p : parser) (activeCommand : Option command) : List option :=
  p.global.options ++
    match activeCommand with
    | some c => group_options c.groups
    | none => []

/-- The machines a run of `parse(argc, argv)` passes through at the head of its
`while` loop: the initial one, and the one after each completed iteration. -/
inductive reachable (vp : Nat → Str → Bool) (p : parser) (argc : Nat) (argv : List Str) :
    machine → Prop where
  | start : reachable vp p argc argv machine.init
  | next (m m1 : machine) : reachable vp p argc argv m → m.pos ≠ argc →
      parse_step vp p argc argv m = .ok m1 → reachable vp p argc argv m1

/-- True when a command is active and has the group `G` attached. -/
def attached (G : option_group) (activeCommand : Option command) : Bool :=
  match activeCommand with
  | some c => decide (G ∈ c.groups)
  | none => false

/-! ## Positional arguments, in the words of the specification -/

/-- Modelled from the spec: the value-conversion objects of `example.cpp`.
The object of `log-level` (handle 0) accepts exactly its allowed values; the
plain string values (other handles) accept every raw string. -/
def example_values : Nat → Str → Bool :=
  fun h v =>
    if h = 0 then
      decide (v ∈ ["trace".toList, "debug".toList, "info".toList, "notice".toList,
        "warning".toList, "error".toList, "critical".toList, "alert".toList,
        "emerg".toList, "off".toList])
    else true

/-- The group pointed to by an adder after a call of `add_option` with result
`r`: the new option is pushed by the last statement, so a call that throws
leaves the group as it was. -/
def group_after (group : option_group) (r : Except exception option_group) : option_group :=
  match r with
  | .ok g => g
  | .error _ => group

/-- Modelled from the spec: the default values of `example.cpp`; only
`log-level` (handle 0) has one, `trace`. -/
def example_defaults : Nat → Option Str :=
  fun h => if h = 0 then some "trace".toList else none

/-! ## Help text, in the words of the specification -/

/-- The texts `f x` for the `x` of a list, one after the other in list
order. -/
def concat_map {α : Type} (f : α → Str) : List α → Str
  | [] => []
  | x :: xs => f x ++ concat_map f xs

/-- The usage item of an option: its canonical name (the long name, or the
short name when there is no long name) in brackets, after a single dash when
that name has exactly one character and after two dashes otherwise, followed by
`=<name>` when the option requires a value. -/
def usage_item (o : option) : Str :=
  let n := if o.longName.isEmpty then o.shortName else o.longName
  " [".toList ++ (if n.length = 1 then "-".toList else "--".toList) ++ n ++
    (if o.requires_value then "=<".toList ++ n ++ ">".toList else []) ++ "]".toList

/-- The usage item of a positional argument. -/
def usage_argument (a : option) : Str :=
  " <".toList ++ a.name ++ ">".toList

/-! ## Later machines of a run -/

/-- The machines that the run of `parse(argc, argv)` passes through at the head
of its loop from the machine `m` on: `m` itself, and the one after each further
completed iteration. -/
inductive later (vp : Nat → Str → Bool) (p : parser) (argc : Nat) (argv : List Str)
    (m : machine) : machine → Prop where
  | here : later vp p argc argv m m
  | next (m1 m2 : machine) : later vp p argc argv m m1 → m1.pos ≠ argc →
      parse_step vp p argc argv m1 = .ok m2 → later vp p argc argv m m2

/-! ## A command with two required arguments -/

/-- Every entry of the map is stored under the canonical name of its
option. -/
def canonical_keys (s : List (Str × option)) : Prop :=
  ∀ k o, (k, o) ∈ s → k = o.name

/-! ## Theorems -/

theorem is_letter_ne_dash (c : Char) (h : is_letter c = true) : c ≠ '-' := by
  rintro rfl
  revert h
  decide

theorem is_letter_is_dot (c : Char) (h : is_letter c = true) : is_dot c = true := by
  have h1 : c ≠ '\n' := by
    rintro rfl
    revert h
    decide
  have h2 : c ≠ '\r' := by
    rintro rfl
    revert h
    decide
  simp [is_dot, h1, h2]

theorem is_alnum_is_name_char (c : Char) (h : is_alnum c = true) : is_name_char c = true := by
  simp [is_name_char, h]

theorem span_name_chars (name tail : Str) (h : name.all is_name_char = true)
    (ht : ∀ c, tail.head? = some c → is_name_char c = false) :
    (name ++ tail).takeWhile is_name_char = name ∧
      (name ++ tail).dropWhile is_name_char = tail := by
  induction name with
  | nil =>
    cases tail with
    | nil => simp
    | cons c t =>
      have hc := ht c rfl
      simp [List.takeWhile, List.dropWhile, hc]
  | cons a l ih =>
    simp only [List.all_cons, Bool.and_eq_true] at h
    have := ih h.2
    simp [List.takeWhile, List.dropWhile, h.1, this]

theorem match_long_body_bare (name : Str) (h : is_long_name name = true) :
    match_long_body name = some (name, []) := by
  match name, h with
  | c :: d :: rest, h =>
    simp only [is_long_name, Bool.and_eq_true] at h
    have hall : (c :: d :: rest).all is_name_char = true := by
      rw [List.all_cons, is_alnum_is_name_char c h.1, h.2]; rfl
    have hs := span_name_chars (c :: d :: rest) [] hall (by simp)
    simp only [List.append_nil] at hs
    simp [match_long_body, hs.1, hs.2, h.1]

theorem match_long_body_value (name value : Str) (h : is_long_name name = true)
    (hv : value.all is_dot = true) :
    match_long_body (name ++ '=' :: value) = some (name, value) := by
  match name, h with
  | c :: d :: rest, h =>
    simp only [is_long_name, Bool.and_eq_true] at h
    have hall : (c :: d :: rest).all is_name_char = true := by
      rw [List.all_cons, is_alnum_is_name_char c h.1, h.2]; rfl
    have hs := span_name_chars (c :: d :: rest) ('=' :: value) hall (by
      intro x hx
      simp at hx
      subst hx
      decide)
    simp only [match_long_body, hs.1, hs.2, h.1]
    simp [hv]

theorem regex_match_long_bare (name : Str) (h : is_long_name name = true) :
    regex_match ('-' :: '-' :: name) = ⟨false, name, [], []⟩ := by
  simp [regex_match, match_long, match_long_body_bare name h]

theorem regex_match_long_value (name value : Str) (h : is_long_name name = true)
    (hv : value.all is_dot = true) :
    regex_match ('-' :: '-' :: (name ++ '=' :: value)) = ⟨false, name, value, []⟩ := by
  simp [regex_match, match_long, match_long_body_value name value h hv]

theorem regex_match_short (c : Char) (rest : Str)
    (h : (c :: rest).all is_letter = true) :
    regex_match ('-' :: c :: rest) = ⟨false, [], [], c :: rest⟩ := by
  have hc : is_letter c = true := by
    simp only [List.all_cons, Bool.and_eq_true] at h
    exact h.1
  have hne := is_letter_ne_dash c hc
  simp [regex_match, match_long, match_short, hne, h]


variable (vp : Nat → Str → Bool) (p : parser) (argc : Nat) (argv : List Str)

theorem setOption_cmd (m : machine) (o : option) (v : Str) :
    (setOption vp m o v).2.state.cmd = m.state.cmd := by
  unfold setOption
  split
  · split <;> rfl
  · rfl

theorem setOption_pos (m : machine) (o : option) (v : Str) :
    (setOption vp m o v).2.pos = m.pos := by
  unfold setOption
  split
  · split <;> rfl
  · rfl

theorem setOption_flag (m : machine) (o : option) (v : Str) (h : o.parser = none) :
    (setOption vp m o v).2 =
      { m with state := { m.state with
          set_options := map_assign m.state.set_options o.name o } } := by
  simp [setOption, h]

theorem setOption_accept (m : machine) (o : option) (v : Str) (h : Nat)
    (hp : o.parser = some h) (hv : vp h v = true) :
    (setOption vp m o v).2 =
      { state := { m.state with set_options := map_assign m.state.set_options o.name o },
        pos := m.pos,
        delivered := m.delivered ++ [(h, v)] } := by
  simp [setOption, hp, hv]

theorem run_flags_cmd (m : machine) (cs : List Char) :
    (run_flags vp p m cs).state.cmd = m.state.cmd := by
  induction cs generalizing m with
  | nil => rfl
  | cons c cs ih =>
    unfold run_flags
    split
    · rw [ih, setOption_cmd]
    · rw [ih]

theorem run_flags_pos (m : machine) (cs : List Char) :
    (run_flags vp p m cs).pos = m.pos := by
  induction cs generalizing m with
  | nil => rfl
  | cons c cs ih =>
    unfold run_flags
    split
    · rw [ih, setOption_pos]
    · rw [ih]

theorem substr_at (done : Str) (c : Char) (rest : Str) :
    substr (done ++ c :: rest) done.length 1 = [c] := by
  simp [substr]

theorem substr_from_at (done : Str) (c : Char) (rest : Str) :
    substr_from (done ++ c :: rest) (done.length + 1) = rest := by
  have : done ++ c :: rest = (done ++ [c]) ++ rest := by simp
  rw [substr_from, this]
  have h2 : done.length + 1 = (done ++ [c]).length := by simp
  rw [h2, List.drop_left]

/-- One iteration of the cluster loop at letter `c`, a boolean option. -/
theorem parse_short_flag (done : Str) (c : Char) (rest : Str) (fuel : Nat) (m : machine)
    (o : option) (ho : find_option p [c] m.state.cmd = some o) (hp : o.parser = none) :
    parse_short vp p argc argv (done ++ c :: rest) (fuel + 1) done.length m =
      parse_short vp p argc argv (done ++ c :: rest) fuel (done.length + 1)
        (setOption vp m o []).2 := by
  rw [parse_short]
  simp [substr_at, ho, option.requires_value, hp]

theorem parse_short_flags (done bs tail : Str) (fuel : Nat) (m : machine)
    (h : all_flags p m.state.cmd bs = true) :
    parse_short vp p argc argv (done ++ bs ++ tail) (bs.length + fuel) done.length m =
      parse_short vp p argc argv (done ++ bs ++ tail) fuel (done.length + bs.length)
        (run_flags vp p m bs) := by
  induction bs generalizing done m with
  | nil => simp [run_flags]
  | cons b bs ih =>
    simp only [all_flags, List.all_cons, Bool.and_eq_true] at h
    obtain ⟨hb, hbs⟩ := h
    cases ho : find_option p [b] m.state.cmd with
    | none => simp [ho] at hb
    | some o =>
      have hb : o.parser = none := by
        cases hq : o.parser with
        | none => rfl
        | some h => simp [ho, option.requires_value, hq] at hb
      have e1 : (b :: bs).length + fuel = (bs.length + fuel) + 1 := by
        simp only [List.length_cons]; omega
      have e2 : done ++ b :: bs ++ tail = done ++ b :: (bs ++ tail) := by simp
      rw [e1, e2, parse_short_flag vp p argc argv done b (bs ++ tail) (bs.length + fuel) m o ho hb]
      have e3 : done ++ b :: (bs ++ tail) = (done ++ [b]) ++ bs ++ tail := by simp
      have e4 : done.length + 1 = (done ++ [b]).length := by simp
      rw [e3, e4, ih (done ++ [b]) (setOption vp m o []).2 (by
        rw [setOption_cmd]; exact hbs)]
      simp only [run_flags, ho, List.length_append, List.length_cons, List.length_nil]
      congr 1
      omega

/-! ### The cluster loop at a value-requiring letter, and single steps -/

theorem parse_short_done (s : Str) (fuel i : Nat) (m : machine) (h : s.length ≤ i) :
    parse_short vp p argc argv s fuel i m = .ok m := by
  have h1 : ¬ i < s.length := by omega
  cases fuel with
  | zero => simp [parse_short, h1]
  | succ n => rw [parse_short]; simp [h1]

theorem parse_short_middle (done : Str) (c : Char) (rest : Str) (fuel : Nat) (m : machine)
    (o : option) (hd : done ≠ []) (hr : rest ≠ [])
    (ho : find_option p [c] m.state.cmd = some o) (hp : o.requires_value = true) :
    parse_short vp p argc argv (done ++ c :: rest) (fuel + 1) done.length m =
      .error (.thrown (.missing_value o.name)) := by
  have h0 : done.length ≠ 0 := by
    intro h
    exact hd (List.length_eq_zero.mp h)
  have h1 : 0 < rest.length := List.length_pos.mpr hr
  have h2 : done.length ≠ done.length + (rest.length + 1) - 1 := by omega
  rw [parse_short]
  simp [substr_at, ho, hp, h0, hr]

theorem parse_short_first (c : Char) (rest : Str) (fuel : Nat) (m : machine)
    (o : option) (hr : rest ≠ [])
    (ho : find_option p [c] m.state.cmd = some o) (hp : o.requires_value = true) :
    parse_short vp p argc argv (c :: rest) (fuel + 1) 0 m =
      .ok (setOption vp m o rest).2 := by
  have h1 : 0 < rest.length := List.length_pos.mpr hr
  have h2 : ¬ (0 = rest.length) := by omega
  rw [parse_short]
  simp [substr, substr_from, ho, hp, h2]

theorem is_valid_value_eq (i : Nat) :
    is_valid_value argv.length argv i =
      .ok (match argv[i]? with
        | none => false
        | some token => decide (token.head? ≠ some '-')) := by
  unfold is_valid_value
  by_cases h : i ≥ argv.length
  · simp [h, List.getElem?_eq_none h]
  · have hlt : i < argv.length := by omega
    simp only [h, if_false]
    cases hg : argv[i]? with
    | none =>
      rw [List.getElem?_eq_getElem hlt] at hg
      cases hg
    | some token =>
      cases token with
      | nil => simp
      | cons a t =>
        by_cases ha : a = '-' <;> simp [ha]

theorem parse_short_last (done : Str) (c : Char) (fuel : Nat) (m : machine)
    (o : option)
    (ho : find_option p [c] m.state.cmd = some o) (hp : o.requires_value = true) :
    parse_short vp p argv.length argv (done ++ [c]) (fuel + 1) done.length m =
      match argv[m.pos + 1]? with
      | none => .error (.thrown (.missing_value o.name))
      | some next =>
        if next.head? = some '-' then .error (.thrown (.missing_value o.name))
        else .ok { (setOption vp m o next).2 with pos := m.pos + 1 } := by
  rw [parse_short]
  simp only [substr_at, ho, hp, is_valid_value_eq]
  simp only [List.length_append, List.length_cons, List.length_nil]
  cases hg : argv[m.pos + 1]? with
  | none => simp
  | some next =>
    by_cases hn : next.head? = some '-'
    · simp [hn]
    · simp [hn, parse_short_done, setOption_pos]

theorem parse_step_positional (m : machine) (token : Str)
    (ht : argv[m.pos]? = some token) (hr : (regex_match token).empty = true) :
    parse_step vp p argc argv m =
      next_pos (parse_positional vp p m token) := by
  simp [parse_step, ht, hr]

theorem parse_step_short (m : machine) (c : Char) (rest : Str)
    (ht : argv[m.pos]? = some ('-' :: c :: rest))
    (hl : (c :: rest).all is_letter = true) :
    parse_step vp p argc argv m =
      next_pos (parse_short vp p argc argv (c :: rest) (rest.length + 1) 0 m) := by
  simp [parse_step, ht, regex_match_short c rest hl]

theorem parse_step_long_bare (m : machine) (name : Str)
    (ht : argv[m.pos]? = some ('-' :: '-' :: name))
    (hn : is_long_name name = true) :
    parse_step vp p argc argv m =
      next_pos (parse_long vp p argc argv ⟨false, name, [], []⟩ m) := by
  have hlen : name ≠ [] := by
    intro h
    subst h
    simp [is_long_name] at hn
  simp [parse_step, ht, regex_match_long_bare name hn, hlen]

theorem parse_step_long_value (m : machine) (name value : Str)
    (ht : argv[m.pos]? = some ('-' :: '-' :: (name ++ '=' :: value)))
    (hn : is_long_name name = true) (hv : value.all is_dot = true) :
    parse_step vp p argc argv m =
      next_pos (parse_long vp p argc argv ⟨false, name, value, []⟩ m) := by
  have hlen : name ≠ [] := by
    intro h
    subst h
    simp [is_long_name] at hn
  simp [parse_step, ht, regex_match_long_value name value hn hv, hlen]

theorem parse_loop_error (fuel : Nat) (m : machine) (f : fault)
    (hpos : m.pos ≠ argc) (hs : parse_step vp p argc argv m = .error f) :
    parse_loop vp p argc argv (fuel + 1) m = .error f := by
  rw [parse_loop]
  simp [hpos, hs]

theorem parse_loop_ok (fuel : Nat) (m m1 : machine)
    (hpos : m.pos ≠ argc) (hs : parse_step vp p argc argv m = .ok m1) :
    parse_loop vp p argc argv (fuel + 1) m = parse_loop vp p argc argv fuel m1 := by
  rw [parse_loop]
  simp [hpos, hs]

theorem parse_loop_end (fuel : Nat) (m : machine) (hpos : m.pos = argc) :
    parse_loop vp p argc argv fuel m = .ok m := by
  cases fuel with
  | zero => simp [parse_loop, hpos]
  | succ n => rw [parse_loop]; simp [hpos]

theorem get_lt_length (l : List Str) (i : Nat) (t : Str) (h : l[i]? = some t) :
    i ≠ l.length := by
  intro hi
  rw [List.getElem?_eq_none (by omega)] at h
  cases h

/-! ### Short-option clusters (claims C2, C3) -/

/-- A cluster `-` `bs` `x` `rest` whose leading letters `bs` (at least one) are
boolean flags and whose letter `x`, followed by at least one more letter, is
value-requiring: the cluster loop throws missing-value for `x`. -/
theorem parse_step_cluster_middle (m : machine) (bs : Str) (x : Char) (rest : Str)
    (opt : option) (hbs : bs ≠ []) (hrest : rest ≠ [])
    (hletters : (bs ++ x :: rest).all is_letter = true)
    (htoken : argv[m.pos]? = some ('-' :: (bs ++ x :: rest)))
    (hflags : all_flags p m.state.cmd bs = true)
    (hx : find_option p [x] m.state.cmd = some opt)
    (hv : opt.requires_value = true) :
    parse_step vp p argc argv m = .error (.thrown (.missing_value opt.name)) := by
  obtain ⟨b, bs1, rfl⟩ := List.exists_cons_of_ne_nil hbs
  have hstep := parse_step_short vp p argc argv m b (bs1 ++ x :: rest) htoken hletters
  rw [hstep]
  have e1 : b :: (bs1 ++ x :: rest) = [] ++ (b :: bs1) ++ (x :: rest) := by simp
  have e2 : (bs1 ++ x :: rest).length + 1 = (b :: bs1).length + (rest.length + 1) := by
    simp only [List.length_append, List.length_cons]; omega
  have e3 : (0 : Nat) = ([] : Str).length := rfl
  rw [e1, e2]
  rw [e3, parse_short_flags vp p argc argv [] (b :: bs1) (x :: rest) (rest.length + 1) m hflags]
  have e4 : ([] : Str) ++ (b :: bs1) ++ (x :: rest) = (b :: bs1) ++ x :: rest := by simp
  have e5 : ([] : Str).length + (b :: bs1).length = (b :: bs1).length := by simp
  rw [e4, e5, parse_short_middle vp p argc argv (b :: bs1) x rest rest.length
    (run_flags vp p m (b :: bs1)) opt (by simp) hrest
    (by rw [run_flags_cmd]; exact hx) hv]
  rfl

/-- Claim C3: in a short-option cluster (a dash followed by letters), when every
letter before position `i` is a boolean flag and the letter at position `i`,
neither first nor last, is value-requiring, the iteration fails with the
missing-value error carrying that option's canonical name, and so does the
parse loop from any machine whose cursor is on the cluster; a parse whose first
token is the cluster returns no option state. -/
theorem short_cluster_middle_value_missing (vp : Nat → Str → Bool) (p : parser)
    (argv : List Str) (m : machine) (bs : Str) (x : Char) (rest : Str) (opt : option)
    (hfirst : bs ≠ []) (hlast : rest ≠ [])
    (hletters : (bs ++ x :: rest).all is_letter = true)
    (htoken : argv[m.pos]? = some ('-' :: (bs ++ x :: rest)))
    (hflags : all_flags p m.state.cmd bs = true)
    (hx : find_option p [x] m.state.cmd = some opt)
    (hv : opt.requires_value = true) :
    parse_step vp p argv.length argv m = .error (.thrown (.missing_value opt.name)) ∧
    (∀ fuel, parse_loop vp p argv.length argv (fuel + 1) m
      = .error (.thrown (.missing_value opt.name))) ∧
    (m = machine.init →
      parse vp p argv.length argv = .error (.thrown (.missing_value opt.name))) := by
  have hstep := parse_step_cluster_middle vp p argv.length argv m bs x rest opt hfirst hlast
    hletters htoken hflags hx hv
  have hpos := get_lt_length argv m.pos _ htoken
  have hloop : ∀ fuel, parse_loop vp p argv.length argv (fuel + 1) m
      = .error (.thrown (.missing_value opt.name)) :=
    fun fuel => parse_loop_error vp p argv.length argv fuel m _ hpos hstep
  refine ⟨hstep, hloop, ?_⟩
  intro hm
  subst hm
  simp [parse, parse_machine, hloop]

/-- Witness for claim C3: `-acVALUE` with `a` a flag and `c` value-requiring. -/
theorem short_cluster_middle_value_missing_witness :
    parse accept_all flat_registry 2 ["prog".toList, "-acVALUE".toList]
      = .error (.thrown (.missing_value "c".toList)) :=
  (short_cluster_middle_value_missing accept_all flat_registry
    ["prog".toList, "-acVALUE".toList] machine.init "a".toList 'c' "VALUE".toList
    ⟨false, "c".toList, "c".toList, [], [], some 0⟩
    (by decide) (by decide) (by decide) (by decide) (by decide) (by decide) (by decide)).2.2 rfl

/-- Counterexample to claim C2: with flags `a`, `b` and value-requiring `c`,
the single token `-abcVALUE` does not succeed; it fails with missing-value for
`c`. -/
theorem cluster_abc_value_counterexample :
    parse accept_all flat_registry 2 ["prog".toList, "-abcVALUE".toList]
      = .error (.thrown (.missing_value "c".toList)) := by
  decide

/-- Claim C2 as amended: when `a` and `b` resolve to boolean flags and `c` to a
value-requiring option, and `VALUE` is a non-empty string of letters, parsing
the single token `-abcVALUE` fails with the missing-value error carrying the
canonical name of `c`, which is neither first nor last in the cluster. -/
theorem cluster_abc_value_missing (vp : Nat → Str → Bool) (p : parser) (prog : Str)
    (a b c : Char) (VALUE : Str) (oa ob oc : option)
    (hne : VALUE ≠ [])
    (hletters : (a :: b :: c :: VALUE).all is_letter = true)
    (ha : find_option p [a] none = some oa) (hfa : oa.requires_value = false)
    (hb : find_option p [b] none = some ob) (hfb : ob.requires_value = false)
    (hc : find_option p [c] none = some oc) (hvc : oc.requires_value = true) :
    parse vp p 2 [prog, '-' :: a :: b :: c :: VALUE]
      = .error (.thrown (.missing_value oc.name)) := by
  have hflags : all_flags p machine.init.state.cmd [a, b] = true := by
    simp [all_flags, machine.init, option_state.init, ha, hb, hfa, hfb]
  have hstep := parse_step_cluster_middle vp p 2 [prog, '-' :: a :: b :: c :: VALUE]
    machine.init [a, b] c VALUE oc (by simp) hne hletters rfl hflags hc hvc
  have hloop := parse_loop_error vp p 2 [prog, '-' :: a :: b :: c :: VALUE] 2 machine.init _
    (by decide) hstep
  simp [parse, parse_machine, hloop]

/-- Witness for the amended claim C2. -/
theorem cluster_abc_value_missing_witness :
    parse accept_all flat_registry 2 ["prog".toList, "-abcVALUE".toList]
      = .error (.thrown (.missing_value "c".toList)) :=
  cluster_abc_value_missing accept_all flat_registry "prog".toList 'a' 'b' 'c'
    "VALUE".toList ⟨false, "a".toList, "a".toList, [], [], none⟩
    ⟨false, "b".toList, "b".toList, [], [], none⟩
    ⟨false, "c".toList, "c".toList, [], [], some 0⟩
    (by decide) (by decide) (by decide) (by decide) (by decide) (by decide) (by decide)
    (by decide)

/-! ### Values taken from the next token, and long options (claims C1, C4, C5) -/

theorem parse_long_bare_value (m : machine) (name : Str) (opt : option)
    (ho : find_option p name m.state.cmd = some opt) (hv : opt.requires_value = true) :
    parse_long vp p argv.length argv ⟨false, name, [], []⟩ m =
      match argv[m.pos + 1]? with
      | none => .error (.thrown (.missing_value opt.name))
      | some next =>
        if next.head? = some '-' then .error (.thrown (.missing_value opt.name))
        else .ok { (setOption vp m opt next).2 with pos := m.pos + 1 } := by
  simp only [parse_long, ho, hv, is_valid_value_eq]
  cases hg : argv[m.pos + 1]? with
  | none => simp
  | some next =>
    by_cases hn : next.head? = some '-'
    · simp [hn]
    · simp [hn, setOption_pos]

theorem parse_long_inline_value (m : machine) (name value : Str) (opt : option)
    (hne : value ≠ [])
    (ho : find_option p name m.state.cmd = some opt) (hv : opt.requires_value = true) :
    parse_long vp p argc argv ⟨false, name, value, []⟩ m =
      .ok (setOption vp m opt value).2 := by
  simp [parse_long, ho, hv, hne]

theorem parse_long_flag_value (m : machine) (name value : Str) (opt : option)
    (hne : value ≠ [])
    (ho : find_option p name m.state.cmd = some opt) (hv : opt.requires_value = false) :
    parse_long vp p argc argv ⟨false, name, value, []⟩ m =
      .error (.thrown (.not_expecting_value opt.name)) := by
  simp [parse_long, ho, hv, hne]

theorem setOption_delivered (m : machine) (o : option) (v : Str) (h : Nat)
    (hp : o.parser = some h) :
    (setOption vp m o v).2.delivered = m.delivered ++ [(h, v)] := by
  unfold setOption
  simp only [hp]
  split <;> rfl

/-- Claim C4: a value-requiring option given without inline value, as a bare
`--name` or as the last letter of a short cluster whose earlier letters are
flags, makes the iteration fail with missing-value for that option exactly when
there is no next token or the next token starts with `-`; otherwise the next
token is handed verbatim to the option and the cursor moves two places, past
that token. -/
theorem value_taken_from_next_token (vp : Nat → Str → Bool) (p : parser)
    (argv : List Str) (m : machine) (opt : option) (hv : opt.requires_value = true) :
    (∀ name : Str, is_long_name name = true →
      argv[m.pos]? = some ('-' :: '-' :: name) →
      find_option p name m.state.cmd = some opt →
      parse_step vp p argv.length argv m =
        match argv[m.pos + 1]? with
        | none => .error (.thrown (.missing_value opt.name))
        | some next =>
          if next.head? = some '-' then .error (.thrown (.missing_value opt.name))
          else .ok { (setOption vp m opt next).2 with pos := m.pos + 2 }) ∧
    (∀ (bs : Str) (x : Char), (bs ++ [x]).all is_letter = true →
      argv[m.pos]? = some ('-' :: (bs ++ [x])) →
      all_flags p m.state.cmd bs = true →
      find_option p [x] m.state.cmd = some opt →
      parse_step vp p argv.length argv m =
        match argv[m.pos + 1]? with
        | none => .error (.thrown (.missing_value opt.name))
        | some next =>
          if next.head? = some '-' then .error (.thrown (.missing_value opt.name))
          else .ok { (setOption vp (run_flags vp p m bs) opt next).2 with pos := m.pos + 2 }) ∧
    (∀ (m1 : machine) (next : Str) (h : Nat), opt.parser = some h →
      (setOption vp m1 opt next).2.delivered = m1.delivered ++ [(h, next)]) := by
  refine ⟨?_, ?_, ?_⟩
  · intro name hname htoken hopt
    rw [parse_step_long_bare vp p argv.length argv m name htoken hname,
      parse_long_bare_value vp p argv m name opt hopt hv]
    cases hg : argv[m.pos + 1]? with
    | none => rfl
    | some next =>
      by_cases hn : next.head? = some '-'
      · simp [hn, next_pos]
      · simp [hn, next_pos]
  · intro bs x hletters htoken hflags hopt
    have hshape : ∃ c rest, bs ++ [x] = c :: rest := by
      cases bs with
      | nil => exact ⟨x, [], rfl⟩
      | cons b bs1 => exact ⟨b, bs1 ++ [x], rfl⟩
    obtain ⟨c, rest, hcr⟩ := hshape
    rw [hcr] at htoken hletters
    rw [parse_step_short vp p argv.length argv m c rest htoken hletters, ← hcr]
    have hlen : rest.length + 1 = bs.length + 1 := by
      have := congrArg List.length hcr
      simp only [List.length_append, List.length_cons, List.length_nil] at this
      omega
    have e3 : (0 : Nat) = ([] : Str).length := rfl
    have e1 : bs ++ [x] = [] ++ bs ++ [x] := by simp
    rw [hlen, e1, e3, parse_short_flags vp p argv.length argv [] bs [x] 1 m hflags]
    have e4 : ([] : Str) ++ bs ++ [x] = bs ++ [x] := by simp
    have e5 : ([] : Str).length + bs.length = bs.length := by simp
    rw [e4, e5, parse_short_last vp p argv bs x 0 (run_flags vp p m bs) opt
      (by rw [run_flags_cmd]; exact hopt) hv, run_flags_pos]
    cases hg : argv[m.pos + 1]? with
    | none => rfl
    | some next =>
      by_cases hn : next.head? = some '-'
      · simp [hn, next_pos]
      · simp [hn, next_pos]
  · intro m1 next h hp
    exact setOption_delivered vp m1 opt next h hp

/-- Witness for claim C4: `--opt val`, `-abo val` and a missing next token. -/
theorem value_taken_from_next_token_witness :
    parse_step accept_all flat_registry 3
        ["prog".toList, "--opt".toList, "val".toList] machine.init
      = .ok ⟨⟨0, none, [("opt".toList,
          ⟨false, "opt".toList, "o".toList, "opt".toList, [], some 1⟩)], []⟩, 3,
          [(1, "val".toList)]⟩ ∧
    parse_step accept_all flat_registry 2 ["prog".toList, "-abo".toList] machine.init
      = .error (.thrown (.missing_value "opt".toList)) :=
  ⟨(value_taken_from_next_token accept_all flat_registry
      ["prog".toList, "--opt".toList, "val".toList] machine.init
      ⟨false, "opt".toList, "o".toList, "opt".toList, [], some 1⟩ (by decide)).1
      "opt".toList (by decide) (by decide) (by decide),
   (value_taken_from_next_token accept_all flat_registry
      ["prog".toList, "-abo".toList] machine.init
      ⟨false, "opt".toList, "o".toList, "opt".toList, [], some 1⟩ (by decide)).2.1
      "ab".toList 'o' (by decide) (by decide) (by decide) (by decide)⟩

/-- Counterexample to claim C5: for the boolean option `version` and the empty
value string, the token `--version=` does not fail; the option is marked set.
For a value string holding a line feed the token is no option token at all,
and the parse does not fail either. -/
theorem long_flag_empty_value_counterexample :
    parse accept_all flat_registry 2 ["prog".toList, "--version=".toList]
      = .ok ⟨0, none, [("version".toList,
          ⟨false, "version".toList, "v".toList, "version".toList, [], none⟩)], []⟩ ∧
    parse accept_all flat_registry 2 ["prog".toList, "--version=a\nb".toList]
      = .ok ⟨0, none, [], []⟩ := by
  decide

/-- Claim C5 as amended: for an option without value-conversion object that
resolves under a well-formed long name, and a value string `V` that is not
empty and holds no line terminator, the token `--name=V` makes the iteration
fail with the not-expecting-value error naming the option; the parse loop fails
from any machine whose cursor is on the token, and a parse whose first token it
is returns no option state. -/
theorem long_flag_with_value_rejected (vp : Nat → Str → Bool) (p : parser)
    (argv : List Str) (m : machine) (name V : Str) (opt : option)
    (hname : is_long_name name = true) (hV : V ≠ []) (hdot : V.all is_dot = true)
    (htoken : argv[m.pos]? = some ('-' :: '-' :: (name ++ '=' :: V)))
    (hopt : find_option p name m.state.cmd = some opt)
    (hflag : opt.requires_value = false) :
    parse_step vp p argv.length argv m
      = .error (.thrown (.not_expecting_value opt.name)) ∧
    (∀ fuel, parse_loop vp p argv.length argv (fuel + 1) m
      = .error (.thrown (.not_expecting_value opt.name))) ∧
    (m = machine.init →
      parse vp p argv.length argv = .error (.thrown (.not_expecting_value opt.name))) := by
  have hstep : parse_step vp p argv.length argv m
      = .error (.thrown (.not_expecting_value opt.name)) := by
    rw [parse_step_long_value vp p argv.length argv m name V htoken hname hdot,
      parse_long_flag_value vp p argv.length argv m name V opt hV hopt hflag]
    rfl
  have hpos := get_lt_length argv m.pos _ htoken
  have hloop : ∀ fuel, parse_loop vp p argv.length argv (fuel + 1) m
      = .error (.thrown (.not_expecting_value opt.name)) :=
    fun fuel => parse_loop_error vp p argv.length argv fuel m _ hpos hstep
  refine ⟨hstep, hloop, ?_⟩
  intro hm
  subst hm
  simp [parse, parse_machine, hloop]

/-- Witness for the amended claim C5: `--version=1`. -/
theorem long_flag_with_value_rejected_witness :
    parse accept_all flat_registry 2 ["prog".toList, "--version=1".toList]
      = .error (.thrown (.not_expecting_value "version".toList)) :=
  (long_flag_with_value_rejected accept_all flat_registry
    ["prog".toList, "--version=1".toList] machine.init "version".toList "1".toList
    ⟨false, "version".toList, "v".toList, "version".toList, [], none⟩
    (by decide) (by decide) (by decide) (by decide) (by decide) (by decide)).2.2 rfl

/-- Counterexample to claim C1: for the value-requiring option `o,opt` and the
value string `-1`, only `--opt=-1` hands the value over; `--opt -1` and `-o -1`
fail with missing-value, and `-o-1` is no option token at all and sets
nothing.  For the empty value string, `--opt=` fails with missing-value.  And
when the value-conversion object rejects `val`, `--opt=val` parses successfully
without recording the option. -/
theorem value_forms_counterexample :
    parse_machine accept_all flat_registry 2 ["prog".toList, "--opt=-1".toList]
      = .ok ⟨⟨0, none, [("opt".toList,
          ⟨false, "opt".toList, "o".toList, "opt".toList, [], some 1⟩)], []⟩, 2,
          [(1, "-1".toList)]⟩ ∧
    parse_machine accept_all flat_registry 3 ["prog".toList, "--opt".toList, "-1".toList]
      = .error (.thrown (.missing_value "opt".toList)) ∧
    parse_machine accept_all flat_registry 2 ["prog".toList, "-o-1".toList]
      = .ok ⟨⟨0, none, [], []⟩, 2, []⟩ ∧
    parse_machine accept_all flat_registry 3 ["prog".toList, "-o".toList, "-1".toList]
      = .error (.thrown (.missing_value "opt".toList)) ∧
    parse_machine accept_all flat_registry 2 ["prog".toList, "--opt=".toList]
      = .error (.thrown (.missing_value "opt".toList)) ∧
    parse_machine reject_all flat_registry 2 ["prog".toList, "--opt=val".toList]
      = .ok ⟨⟨0, none, [], []⟩, 2, [(1, "val".toList)]⟩ := by
  decide

/-- The end of a parse whose loop stops after one iteration. -/
theorem parse_machine_one_step (argc : Nat) (argv : List Str) (m1 : machine)
    (hargc : 1 ≠ argc)
    (hstep : parse_step vp p argc argv machine.init = .ok m1)
    (hpos : m1.pos = argc) (hcmd : m1.state.cmd = none) :
    parse_machine vp p argc argv = .ok m1 := by
  have h1 : parse_loop vp p argc argv (argc + 1) machine.init = .ok m1 := by
    rw [parse_loop_ok vp p argc argv argc machine.init m1 hargc hstep]
    exact parse_loop_end vp p argc argv argc m1 hpos
  simp [parse_machine, h1, check_arguments, hcmd]

/-- Claim C1 as amended: for a value-requiring option that the global group
resolves under the letter `o` and under the well-formed long name `opt`, and a
non-empty value string `V` of letters that the value-conversion object accepts,
the argument vectors `--opt=V`, `--opt V`, `-oV` and `-o V` all parse
successfully, hand exactly the raw string `V` to the option, and return the
same option state: the option recorded under its canonical name, nothing else
set. -/
theorem value_forms_agree (vp : Nat → Str → Bool) (p : parser) (prog : Str)
    (o : Char) (opt V : Str) (op : option) (h : Nat)
    (ho : is_letter o = true) (hopt : is_long_name opt = true)
    (hV : V ≠ []) (hVl : V.all is_letter = true)
    (hs : find_option_in_group p.global [o] = some op)
    (hl : find_option_in_group p.global opt = some op)
    (hp : op.parser = some h) (hacc : vp h V = true) :
    parse_machine vp p 2 [prog, '-' :: '-' :: (opt ++ '=' :: V)]
      = .ok ⟨⟨0, none, [(op.name, op)], []⟩, 2, [(h, V)]⟩ ∧
    parse_machine vp p 3 [prog, '-' :: '-' :: opt, V]
      = .ok ⟨⟨0, none, [(op.name, op)], []⟩, 3, [(h, V)]⟩ ∧
    parse_machine vp p 2 [prog, '-' :: o :: V]
      = .ok ⟨⟨0, none, [(op.name, op)], []⟩, 2, [(h, V)]⟩ ∧
    parse_machine vp p 3 [prog, ['-', o], V]
      = .ok ⟨⟨0, none, [(op.name, op)], []⟩, 3, [(h, V)]⟩ ∧
    parse vp p 2 [prog, '-' :: '-' :: (opt ++ '=' :: V)]
      = .ok ⟨0, none, [(op.name, op)], []⟩ ∧
    parse vp p 3 [prog, '-' :: '-' :: opt, V] = .ok ⟨0, none, [(op.name, op)], []⟩ ∧
    parse vp p 2 [prog, '-' :: o :: V] = .ok ⟨0, none, [(op.name, op)], []⟩ ∧
    parse vp p 3 [prog, ['-', o], V] = .ok ⟨0, none, [(op.name, op)], []⟩ := by
  have hreq : op.requires_value = true := by simp [option.requires_value, hp]
  have hfs : find_option p [o] machine.init.state.cmd = some op := by
    simp [find_option, hs]
  have hfl : find_option p opt machine.init.state.cmd = some op := by
    simp [find_option, hl]
  have hVdot : V.all is_dot = true := by
    rw [List.all_eq_true] at hVl ⊢
    intro c hc
    exact is_letter_is_dot c (hVl c hc)
  obtain ⟨v0, vs, rfl⟩ := List.exists_cons_of_ne_nil hV
  have hv0 : v0 ≠ '-' := by
    apply is_letter_ne_dash
    simp only [List.all_cons, Bool.and_eq_true] at hVl
    exact hVl.1
  have hset : (setOption vp machine.init op (v0 :: vs)).2
      = ⟨⟨0, none, [(op.name, op)], []⟩, 1, [(h, v0 :: vs)]⟩ := by
    rw [setOption_accept vp machine.init op (v0 :: vs) h hp hacc]
    rfl
  have hset1 : (setOption vp ⟨option_state.init, 1, []⟩ op (v0 :: vs)).2
      = ⟨⟨0, none, [(op.name, op)], []⟩, 1, [(h, v0 :: vs)]⟩ := hset
  have h1 : parse_machine vp p 2 [prog, '-' :: '-' :: (opt ++ '=' :: v0 :: vs)]
      = .ok ⟨⟨0, none, [(op.name, op)], []⟩, 2, [(h, v0 :: vs)]⟩ := by
    apply parse_machine_one_step vp p 2 _ _ (by decide) _ rfl rfl
    rw [parse_step_long_value vp p 2 _ machine.init opt (v0 :: vs) rfl hopt hVdot,
      parse_long_inline_value vp p 2 _ machine.init opt (v0 :: vs) op (by simp) hfl hreq,
      hset]
    rfl
  have h2 : parse_machine vp p 3 [prog, '-' :: '-' :: opt, v0 :: vs]
      = .ok ⟨⟨0, none, [(op.name, op)], []⟩, 3, [(h, v0 :: vs)]⟩ := by
    apply parse_machine_one_step vp p 3 _ _ (by decide) _ rfl rfl
    have hb := parse_long_bare_value vp p [prog, '-' :: '-' :: opt, v0 :: vs]
      machine.init opt op hfl hreq
    rw [parse_step_long_bare vp p 3 _ machine.init opt rfl hopt]
    simp only [List.length_cons, List.length_nil] at hb
    rw [hb]
    simp [machine.init, hv0, next_pos, hset1]
  have h3 : parse_machine vp p 2 [prog, '-' :: o :: v0 :: vs]
      = .ok ⟨⟨0, none, [(op.name, op)], []⟩, 2, [(h, v0 :: vs)]⟩ := by
    apply parse_machine_one_step vp p 2 _ _ (by decide) _ rfl rfl
    have hall : (o :: v0 :: vs).all is_letter = true := by
      rw [List.all_cons, ho, hVl]; rfl
    rw [parse_step_short vp p 2 _ machine.init o (v0 :: vs) rfl hall,
      parse_short_first vp p 2 _ o (v0 :: vs) (v0 :: vs).length machine.init op (by simp) hfs hreq,
      hset]
    rfl
  have h4 : parse_machine vp p 3 [prog, ['-', o], v0 :: vs]
      = .ok ⟨⟨0, none, [(op.name, op)], []⟩, 3, [(h, v0 :: vs)]⟩ := by
    apply parse_machine_one_step vp p 3 _ _ (by decide) _ rfl rfl
    have hall : ([o] : Str).all is_letter = true := by simp [ho]
    have hb := parse_short_last vp p [prog, ['-', o], v0 :: vs] [] o 0
      machine.init op hfs hreq
    rw [parse_step_short vp p 3 _ machine.init o [] rfl hall]
    simp only [List.length_cons, List.length_nil, List.nil_append] at hb
    simp only [List.length_nil]
    rw [hb]
    simp [machine.init, hv0, next_pos, hset1]
  refine ⟨h1, h2, h3, h4, ?_, ?_, ?_, ?_⟩
  · simp [parse, h1]
  · simp [parse, h2]
  · simp [parse, h3]
  · simp [parse, h4]

/-- Witness for the amended claim C1: the option `o,opt` and the value `val`. -/
theorem value_forms_agree_witness :
    parse accept_all flat_registry 2 ["prog".toList, "--opt=val".toList]
      = parse accept_all flat_registry 3 ["prog".toList, "--opt".toList, "val".toList] ∧
    parse accept_all flat_registry 2 ["prog".toList, "-oval".toList]
      = parse accept_all flat_registry 3 ["prog".toList, "-o".toList, "val".toList] :=
  have w := value_forms_agree accept_all flat_registry "prog".toList 'o' "opt".toList
    "val".toList ⟨false, "opt".toList, "o".toList, "opt".toList, [], some 1⟩ 1
    (by decide) (by decide) (by decide) (by decide) (by decide) (by decide) (by decide)
    (by decide)
  ⟨w.2.2.2.2.1.trans w.2.2.2.2.2.1.symm, w.2.2.2.2.2.2.1.trans w.2.2.2.2.2.2.2.symm⟩

/-! ### Resolution order (claim C6) and lookups that find nothing -/

theorem find_option_in_eq (os : List option) (name : Str) :
    find_option_in os name = os.find? (has_name name) := by
  induction os with
  | nil => rfl
  | cons o os ih =>
    by_cases h : has_name name o = true
    · have h1 := h
      simp only [has_name] at h1
      simp [find_option_in, List.find?, h, h1]
    · have h1 := h
      simp only [has_name] at h1
      simp only [Bool.not_eq_true] at h
      simp [find_option_in, List.find?, h, h1, ih]

theorem find_option_in_groups_eq (gs : List option_group) (name : Str) :
    find_option_in_groups gs name = (group_options gs).find? (has_name name) := by
  induction gs with
  | nil => rfl
  | cons g gs ih =>
    simp only [find_option_in_groups, group_options, find_option_in_group,
      find_option_in_eq, List.find?_append, ih]
    cases List.find? (has_name name) g.options <;> rfl

/-- Claim C6: `find_option(name, activeCommand)` returns the first option, in
the order global options then the options of the groups attached to the active
command, whose short or long name equals `name`; nothing when there is none;
only the global group is searched when no command is active; and a name that
the global group resolves is resolved to that same option whichever command is
active. -/
theorem find_option_first_match (p : parser) (name : Str) (activeCommand : Option command) :
    find_option p name activeCommand
      = (search_order p activeCommand).find? (has_name name) ∧
    (find_option p name activeCommand = none ↔
      ∀ o ∈ search_order p activeCommand, has_name name o = false) ∧
    find_option p name none = p.global.options.find? (has_name name) ∧
    (∀ g, p.global.options.find? (has_name name) = some g →
      ∀ ac, find_option p name ac = some g) := by
  have key : ∀ ac, find_option p name ac = (search_order p ac).find? (has_name name) := by
    intro ac
    simp only [find_option, search_order, find_option_in_group, find_option_in_eq,
      List.find?_append]
    cases List.find? (has_name name) p.global.options with
    | some o => rfl
    | none =>
      cases ac with
      | none => rfl
      | some c => simp [find_option_in_groups_eq]
  refine ⟨key activeCommand, ?_, ?_, ?_⟩
  · rw [key, List.find?_eq_none]
    simp
  · rw [key]
    simp [search_order]
  · intro g hg ac
    rw [key]
    simp [search_order, List.find?_append, hg]

theorem find_option_in_groups_only (gs : List option_group) (G : option_group) (name : Str)
    (r : Option option) (hG : find_option_in_group G name = r)
    (hother : ∀ g ∈ gs, g ≠ G → find_option_in_group g name = none) :
    find_option_in_groups gs name = if G ∈ gs then r else none := by
  induction gs with
  | nil => rfl
  | cons g gs ih =>
    have ih1 := ih (fun g1 hg1 => hother g1 (List.mem_cons_of_mem g hg1))
    by_cases hg : g = G
    · subst hg
      cases r with
      | none => simp [find_option_in_groups, hG, ih1]
      | some o => simp [find_option_in_groups, hG]
    · have hnone := hother g (List.mem_cons_self g gs) hg
      have hne : ¬ G = g := fun h => hg h.symm
      simp only [find_option_in_groups, hnone, ih1, List.mem_cons, hne, false_or]

theorem find_option_scoped (G : option_group) (name : Str) (opt : option)
    (cmd : Option command)
    (hG : find_option_in_group G name = some opt)
    (hglobal : find_option_in_group p.global name = none)
    (hother : ∀ c, cmd = some c → ∀ g ∈ c.groups, g ≠ G →
      find_option_in_group g name = none) :
    find_option p name cmd = if attached G cmd = true then some opt else none := by
  cases cmd with
  | none => simp [find_option, hglobal, attached]
  | some c =>
    simp only [find_option, hglobal, attached, decide_eq_true_eq]
    exact find_option_in_groups_only c.groups G name (some opt) hG (hother c rfl)

theorem parse_short_unknown (done : Str) (c : Char) (rest : Str) (fuel : Nat) (m : machine)
    (ho : find_option p [c] m.state.cmd = none) :
    parse_short vp p argc argv (done ++ c :: rest) (fuel + 1) done.length m =
      .error (.thrown (.option_not_exists [c])) := by
  rw [parse_short]
  simp [substr_at, ho]

theorem parse_long_unknown (m : machine) (r : match_results)
    (ho : find_option p r.sub1 m.state.cmd = none) :
    parse_long vp p argc argv r m = .error (.thrown (.option_not_exists r.sub1)) := by
  simp [parse_long, ho]

theorem parse_step_cluster_unknown (m : machine) (bs : Str) (x : Char) (rest : Str)
    (hletters : (bs ++ x :: rest).all is_letter = true)
    (htoken : argv[m.pos]? = some ('-' :: (bs ++ x :: rest)))
    (hflags : all_flags p m.state.cmd bs = true)
    (hx : find_option p [x] m.state.cmd = none) :
    parse_step vp p argc argv m = .error (.thrown (.option_not_exists [x])) := by
  have hshape : ∃ c tl, bs ++ x :: rest = c :: tl := by
    cases bs with
    | nil => exact ⟨x, rest, rfl⟩
    | cons b bs1 => exact ⟨b, bs1 ++ x :: rest, rfl⟩
  obtain ⟨c, tl, hcr⟩ := hshape
  rw [hcr] at htoken hletters
  rw [parse_step_short vp p argc argv m c tl htoken hletters, ← hcr]
  have hlen : tl.length + 1 = bs.length + (rest.length + 1) := by
    have := congrArg List.length hcr
    simp only [List.length_append, List.length_cons] at this
    omega
  have e3 : (0 : Nat) = ([] : Str).length := rfl
  have e1 : bs ++ x :: rest = [] ++ bs ++ x :: rest := by simp
  rw [hlen, e1, e3, parse_short_flags vp p argc argv [] bs (x :: rest) (rest.length + 1) m hflags]
  have e4 : ([] : Str) ++ bs ++ x :: rest = bs ++ x :: rest := by simp
  have e5 : ([] : Str).length + bs.length = bs.length := by simp
  rw [e4, e5, parse_short_unknown vp p argc argv bs x rest rest.length (run_flags vp p m bs)
    (by rw [run_flags_cmd]; exact hx)]
  rfl

/-! ### Positional tokens and reachable machines (claims C8, C9, C10) -/

theorem setOption_args_set (m : machine) (o : option) (v : Str) :
    (setOption vp m o v).2.state.args_set = m.state.args_set := by
  unfold setOption
  split
  · split <;> rfl
  · rfl

theorem setOption_extra (m : machine) (o : option) (v : Str) :
    (setOption vp m o v).2.state.extra_arguments = m.state.extra_arguments := by
  unfold setOption
  split
  · split <;> rfl
  · rfl

/-- The cluster loop changes neither the active command, nor the argument
count, nor the leftover list, and never moves the cursor back. -/
theorem parse_short_frame (s : Str) (fuel i : Nat) (m m1 : machine)
    (h : parse_short vp p argc argv s fuel i m = .ok m1) :
    m1.state.cmd = m.state.cmd ∧ m1.state.args_set = m.state.args_set ∧
      m1.state.extra_arguments = m.state.extra_arguments ∧ m.pos ≤ m1.pos := by
  induction fuel generalizing i m with
  | zero =>
    by_cases hi : i < s.length
    · simp [parse_short, hi] at h
    · simp only [parse_short, hi, if_false, Except.ok.injEq] at h
      subst h
      exact ⟨rfl, rfl, rfl, Nat.le_refl _⟩
  | succ n ih =>
    rw [parse_short] at h
    by_cases hi : i < s.length
    · simp only [hi, if_true] at h
      cases ho : find_option p (substr s i 1) m.state.cmd with
      | none => simp [ho] at h
      | some opt =>
        simp only [ho] at h
        by_cases hreq : opt.requires_value = true
        · simp only [hreq, Bool.not_true, Bool.false_eq_true, if_false] at h
          by_cases hlast : i = s.length - 1
          · simp only [hlast, if_true] at h
            cases hvalid : is_valid_value argc argv (m.pos + 1) with
            | error f => simp [hvalid] at h
            | ok b =>
              cases b with
              | false => simp [hvalid] at h
              | true =>
                simp only [hvalid] at h
                cases hg : argv[m.pos + 1]? with
                | none => simp [hg] at h
                | some value =>
                  simp only [hg] at h
                  have := ih _ _ h
                  simp only [setOption_cmd, setOption_args_set, setOption_extra,
                    setOption_pos] at this
                  exact ⟨this.1, this.2.1, this.2.2.1, by omega⟩
          · simp only [hlast, if_false] at h
            by_cases h0 : i = 0
            · simp only [h0, if_true, Except.ok.injEq] at h
              subst h
              rw [setOption_cmd, setOption_args_set, setOption_extra, setOption_pos]
              exact ⟨rfl, rfl, rfl, Nat.le_refl _⟩
            · simp [h0] at h
        · simp only [Bool.not_eq_true] at hreq
          simp only [hreq, Bool.not_false, if_true] at h
          have := ih _ _ h
          rw [setOption_cmd, setOption_args_set, setOption_extra, setOption_pos] at this
          exact this
    · simp only [hi, if_false, Except.ok.injEq] at h
      subst h
      exact ⟨rfl, rfl, rfl, Nat.le_refl _⟩

/-- The long-option branch changes neither the active command, nor the argument
count, nor the leftover list, and never moves the cursor back. -/
theorem parse_long_frame (r : match_results) (m m1 : machine)
    (h : parse_long vp p argc argv r m = .ok m1) :
    m1.state.cmd = m.state.cmd ∧ m1.state.args_set = m.state.args_set ∧
      m1.state.extra_arguments = m.state.extra_arguments ∧ m.pos ≤ m1.pos := by
  unfold parse_long at h
  cases ho : find_option p r.sub1 m.state.cmd with
  | none => simp [ho] at h
  | some opt =>
    simp only [ho] at h
    by_cases h3 : r.sub3.length ≠ 0
    · rw [if_pos h3] at h
      by_cases hreq : opt.requires_value = true
      · simp only [hreq, Bool.not_true, Bool.false_eq_true, if_false,
          Except.ok.injEq] at h
        subst h
        rw [setOption_cmd, setOption_args_set, setOption_extra, setOption_pos]
        exact ⟨rfl, rfl, rfl, Nat.le_refl _⟩
      · simp only [Bool.not_eq_true] at hreq
        simp [hreq] at h
    · rw [if_neg h3] at h
      by_cases hreq : opt.requires_value = true
      · simp only [hreq, Bool.not_true, Bool.false_eq_true, if_false] at h
        cases hvalid : is_valid_value argc argv (m.pos + 1) with
        | error f => simp [hvalid] at h
        | ok b =>
          cases b with
          | false => simp [hvalid] at h
          | true =>
            simp only [hvalid] at h
            cases hg : argv[m.pos + 1]? with
            | none => simp [hg] at h
            | some value =>
              simp only [hg, Except.ok.injEq] at h
              subst h
              simp only [setOption_cmd, setOption_args_set, setOption_extra, setOption_pos]
              exact ⟨trivial, trivial, trivial, by omega⟩
      · simp only [Bool.not_eq_true] at hreq
        simp only [hreq, Bool.not_false, if_true, Except.ok.injEq] at h
        subst h
        rw [setOption_cmd, setOption_args_set, setOption_extra, setOption_pos]
        exact ⟨rfl, rfl, rfl, Nat.le_refl _⟩

theorem next_pos_ok (r : Except fault machine) (m1 : machine) (h : next_pos r = .ok m1) :
    ∃ m0, r = .ok m0 ∧ m1 = { m0 with pos := m0.pos + 1 } := by
  cases r with
  | error f => cases h
  | ok m0 =>
    simp only [next_pos, Except.ok.injEq] at h
    exact ⟨m0, rfl, h.symm⟩

/-- One iteration on a positional token, for a machine without active
command. -/
theorem parse_step_select (m : machine) (t : Str)
    (hnone : m.state.cmd = none) (htoken : argv[m.pos]? = some t)
    (hpos : (regex_match t).empty = true) :
    parse_step vp p argc argv m =
      match find_command p t with
      | some c => .ok ⟨{ m.state with cmd := some c }, m.pos + 1, m.delivered⟩
      | none =>
        if p.commands = [] then .ok { m with pos := m.pos + 1 }
        else .error (.thrown (.option_not_exists t)) := by
  rw [parse_step_positional vp p argc argv m t htoken hpos]
  simp only [parse_positional, hnone]
  cases hf : find_command p t with
  | some c => simp [next_pos]
  | none =>
    by_cases hc : p.commands = []
    · simp [hc, next_pos, ← hnone]
    · simp [hc, next_pos]

theorem find_command_in_eq (cs : List command) (name : Str) :
    find_command_in cs name = cs.find? (fun c => decide (c.name = name)) := by
  induction cs with
  | nil => rfl
  | cons c cs ih =>
    by_cases h : c.name = name
    · simp [find_command_in, List.find?, h]
    · simp [find_command_in, List.find?, h, ih]

/-- What one completed iteration does to the cursor, the active command, the
argument count and the leftover list. -/
theorem parse_step_frame (m m1 : machine) (h : parse_step vp p argc argv m = .ok m1) :
    m.pos < m1.pos ∧
    ((m1.state.cmd = m.state.cmd ∧ m1.state.args_set = m.state.args_set ∧
        m1.state.extra_arguments = m.state.extra_arguments) ∨
      (∃ t, argv[m.pos]? = some t ∧ (regex_match t).empty = true ∧
        ((m.state.cmd = none ∧ m1.state.cmd = find_command p t ∧
            m1.state.args_set = m.state.args_set ∧
            m1.state.extra_arguments = m.state.extra_arguments) ∨
          (∃ c, m.state.cmd = some c ∧ m1.state.cmd = some c ∧
            (((p.commands = [] ∨ c.arguments.length ≤ m.state.args_set) ∧
                m1.state.args_set = m.state.args_set ∧
                m1.state.extra_arguments = m.state.extra_arguments ++ [t]) ∨
              (m.state.args_set < c.arguments.length ∧ p.commands ≠ [] ∧
                m1.state.args_set = m.state.args_set + 1 ∧
                m1.state.extra_arguments = m.state.extra_arguments)))))) := by
  unfold parse_step at h
  cases hg : argv[m.pos]? with
  | none => simp [hg] at h
  | some token =>
    simp only [hg] at h
    obtain ⟨m0, hbody, rfl⟩ := next_pos_ok _ _ h
    by_cases hempty : (regex_match token).empty = true
    · rw [if_pos hempty] at hbody
      unfold parse_positional at hbody
      cases hc : m.state.cmd with
      | none =>
        simp only [hc] at hbody
        by_cases hcond : ((find_command p token).isNone && decide (p.commands.length ≠ 0)) = true
        · rw [if_pos hcond] at hbody
          cases hbody
        · rw [if_neg hcond] at hbody
          simp only [Except.ok.injEq] at hbody
          subst hbody
          refine ⟨Nat.lt_succ_self _, Or.inr ⟨token, rfl, hempty, Or.inl ?_⟩⟩
          exact ⟨rfl, rfl, rfl, rfl⟩
      | some c =>
        simp only [hc] at hbody
        by_cases hcond : (decide (p.commands.length = 0) ||
            decide (m.state.args_set ≥ c.arguments.length)) = true
        · rw [if_pos hcond] at hbody
          simp only [Except.ok.injEq] at hbody
          subst hbody
          simp only [Bool.or_eq_true, decide_eq_true_eq, List.length_eq_zero] at hcond
          exact ⟨Nat.lt_succ_self _,
            Or.inr ⟨token, rfl, hempty, Or.inr ⟨c, rfl, rfl, Or.inl ⟨hcond, rfl, rfl⟩⟩⟩⟩
        · rw [if_neg hcond] at hbody
          simp only [Bool.or_eq_true, decide_eq_true_eq, List.length_eq_zero, not_or,
            not_le] at hcond
          cases ha : c.arguments[m.state.args_set]? with
          | none => simp [ha] at hbody
          | some arg =>
            simp only [ha, Except.ok.injEq] at hbody
            subst hbody
            refine ⟨?_, Or.inr ⟨token, rfl, hempty,
              Or.inr ⟨c, rfl, ?_, Or.inr ⟨hcond.2, hcond.1, ?_, ?_⟩⟩⟩⟩
            · simp only [setOption_pos]
              exact Nat.lt_succ_self _
            · simp only [setOption_cmd]
            · simp only [setOption_args_set]
            · simp only [setOption_extra]
    · rw [if_neg hempty] at hbody
      by_cases h4 : (regex_match token).sub4.length ≠ 0
      · rw [if_pos h4] at hbody
        have hf := parse_short_frame vp p argc argv _ _ _ _ _ hbody
        exact ⟨Nat.lt_succ_of_le hf.2.2.2, Or.inl ⟨hf.1, hf.2.1, hf.2.2.1⟩⟩
      · rw [if_neg h4] at hbody
        by_cases h1 : (regex_match token).sub1.length ≠ 0
        · rw [if_pos h1] at hbody
          have hf := parse_long_frame vp p argc argv _ _ _ hbody
          exact ⟨Nat.lt_succ_of_le hf.2.2.2, Or.inl ⟨hf.1, hf.2.1, hf.2.2.1⟩⟩
        · rw [if_neg h1] at hbody
          simp only [Except.ok.injEq] at hbody
          subst hbody
          exact ⟨Nat.lt_succ_self _, Or.inl ⟨rfl, rfl, rfl⟩⟩

theorem find_command_in_some (cs : List command) (name : Str) (c : command)
    (h : find_command_in cs name = some c) : c.name = name ∧ c ∈ cs := by
  induction cs with
  | nil => cases h
  | cons d cs ih =>
    by_cases hd : d.name = name
    · simp only [find_command_in, hd, if_true, Option.some.injEq] at h
      subst h
      exact ⟨hd, List.mem_cons_self _ _⟩
    · simp only [find_command_in, hd, if_false] at h
      exact ⟨(ih h).1, List.mem_cons_of_mem _ (ih h).2⟩

/-- Invariant of the parse loop: the cursor is at least 1; without active
command no argument is counted and nothing is left over; an active command is
a registered command, the first of its name, and was selected by an earlier
positional token. -/
theorem reachable_invariant (m : machine) (h : reachable vp p argc argv m) :
    1 ≤ m.pos ∧
    (m.state.cmd = none → m.state.args_set = 0 ∧ m.state.extra_arguments = []) ∧
    (∀ c, m.state.cmd = some c →
      c ∈ p.commands ∧ find_command p c.name = some c ∧
      ∃ i, 1 ≤ i ∧ i < m.pos ∧ argv[i]? = some c.name ∧
        (regex_match c.name).empty = true) := by
  induction h with
  | start =>
    refine ⟨Nat.le_refl _, fun _ => ⟨rfl, rfl⟩, ?_⟩
    intro c hc
    cases hc
  | next m m1 _ _ hstep ih =>
    obtain ⟨hlt, hcases⟩ := parse_step_frame vp p argc argv m m1 hstep
    obtain ⟨ih1, ih2, ih3⟩ := ih
    refine ⟨by omega, ?_, ?_⟩
    · intro hnone
      rcases hcases with ⟨hc, ha, he⟩ | ⟨t, _, _, hsel | ⟨c, _, hc1, _⟩⟩
      · rw [ha, he]
        exact ih2 (hc ▸ hnone)
      · rw [hsel.2.2.1, hsel.2.2.2]
        exact ih2 hsel.1
      · rw [hc1] at hnone
        cases hnone
    · intro c hc
      rcases hcases with ⟨hc0, _, _⟩ | ⟨t, ht, hempty, hsel | ⟨c1, hc0, hc1, _⟩⟩
      · obtain ⟨h1, h2, i, hi1, hi2, hi3⟩ := ih3 c (hc0 ▸ hc)
        exact ⟨h1, h2, i, hi1, by omega, hi3⟩
      · have hfind : find_command p t = some c := by
          rw [← hsel.2.1]
          exact hc
        have hin := find_command_in_some p.commands t c hfind
        refine ⟨hin.2, ?_, m.pos, ih1, hlt, ?_, ?_⟩
        · rw [hin.1]
          exact hfind
        · rw [hin.1]
          exact ht
        · rw [hin.1]
          exact hempty
      · have hcc : c1 = c := by
          rw [hc1] at hc
          exact Option.some.inj hc
        subst hcc
        obtain ⟨h1, h2, i, hi1, hi2, hi3⟩ := ih3 c1 hc0
        exact ⟨h1, h2, i, hi1, by omega, hi3⟩

/-- Claim C8: when the registry declares a command and none is selected yet, a
positional token `t` either names a registered command, and the first command
of that name in registration order becomes active while the argument count,
the leftover list and everything else stay as they were (the count 0 and the
list empty in every machine a parse reaches), or it names none and the
iteration fails with the option-not-found error carrying `t`. -/
theorem positional_selects_command (vp : Nat → Str → Bool) (p : parser) (argc : Nat)
    (argv : List Str) (m : machine) (t : Str)
    (hcmds : p.commands ≠ []) (hnone : m.state.cmd = none)
    (htoken : argv[m.pos]? = some t) (hpos : (regex_match t).empty = true) :
    parse_step vp p argc argv m =
      (match p.commands.find? (fun c => decide (c.name = t)) with
        | some c => .ok ⟨{ m.state with cmd := some c }, m.pos + 1, m.delivered⟩
        | none => .error (.thrown (.option_not_exists t))) ∧
    (reachable vp p argc argv m → ∀ m1, parse_step vp p argc argv m = .ok m1 →
      m1.state.args_set = 0 ∧ m1.state.extra_arguments = []) := by
  have hstep := parse_step_select vp p argc argv m t hnone htoken hpos
  refine ⟨?_, ?_⟩
  · rw [hstep, find_command, find_command_in_eq]
    cases List.find? (fun c => decide (c.name = t)) p.commands with
    | some c => rfl
    | none => simp [hcmds]
  · intro hr m1 hm1
    have hinv := (reachable_invariant vp p argc argv m hr).2.1 hnone
    rw [hstep] at hm1
    cases hf : find_command p t with
    | some c =>
      simp only [hf, Except.ok.injEq] at hm1
      subst hm1
      exact hinv
    | none => simp [hf, hcmds] at hm1

/-- Witness for claim C8 on the registry of `example.cpp`: `play` selects the
command, `plough` is not found. -/
theorem positional_selects_command_witness :
    parse_step accept_all example_registry 2 ["prog".toList, "play".toList] machine.init
      = .ok ⟨⟨0, some play_command, [], []⟩, 2, []⟩ ∧
    parse_step accept_all example_registry 2 ["prog".toList, "plough".toList] machine.init
      = .error (.thrown (.option_not_exists "plough".toList)) :=
  ⟨(positional_selects_command accept_all example_registry 2
      ["prog".toList, "play".toList] machine.init "play".toList
      (by decide) (by decide) (by decide) (by decide)).1,
   (positional_selects_command accept_all example_registry 2
      ["prog".toList, "plough".toList] machine.init "plough".toList
      (by decide) (by decide) (by decide) (by decide)).1⟩

/-- In a registry without commands an iteration on a positional token only
moves the cursor: the token is stored nowhere. -/
theorem positional_dropped_without_commands (m : machine) (t : Str)
    (hcmds : p.commands = []) (hnone : m.state.cmd = none)
    (htoken : argv[m.pos]? = some t) (hpos : (regex_match t).empty = true) :
    parse_step vp p argc argv m = .ok { m with pos := m.pos + 1 } := by
  rw [parse_step_select vp p argc argv m t hnone htoken hpos]
  simp [find_command, find_command_in, hcmds]

/-- In a registry without commands every machine a parse reaches has no active
command and an empty leftover list. -/
theorem no_commands_no_leftover (m : machine) (hcmds : p.commands = [])
    (h : reachable vp p argc argv m) :
    m.state.cmd = none ∧ m.state.extra_arguments = [] := by
  have hinv := reachable_invariant vp p argc argv m h
  cases hc : m.state.cmd with
  | none => exact ⟨rfl, (hinv.2.1 hc).2⟩
  | some c =>
    have := (hinv.2.2 c hc).1
    rw [hcmds] at this
    cases this

/-- Claim C10, evaluated on a registry without commands: the positional token
`foo` does not make the parse fail, but it is not appended to the leftover
list, which stays empty; so does `bar` after it. -/
theorem positional_without_commands_lost :
    parse accept_all flat_registry 2 ["prog".toList, "foo".toList]
      = .ok ⟨0, none, [], []⟩ ∧
    parse accept_all flat_registry 4
        ["prog".toList, "foo".toList, "-a".toList, "bar".toList]
      = .ok ⟨0, none, [("a".toList, ⟨false, "a".toList, "a".toList, [], [], none⟩)], []⟩ := by
  decide

/-! ### Filling the declared arguments (claim C9) -/

theorem map_find_assign (s : List (Str × option)) (k : Str) (v : option) (k1 : Str) :
    map_find (map_assign s k v) k1 = if k = k1 then some v else map_find s k1 := by
  induction s with
  | nil => simp [map_assign, map_find]
  | cons e s ih =>
    obtain ⟨k0, v0⟩ := e
    by_cases h0 : k = k0
    · subst h0
      by_cases h1 : k = k1
      · simp [map_assign, map_find, h1]
      · simp [map_assign, map_find, h1]
    · by_cases hlt : str_lt k k0 = true
      · simp [map_assign, map_find, h0, hlt]
      · by_cases h1 : k = k1
        · subst h1
          have h2 : ¬ k0 = k := fun e => h0 e.symm
          simp [map_assign, map_find, h0, hlt, h2, ih]
        · simp [map_assign, map_find, h0, hlt, h1, ih]

/-- One iteration on a bare long option that resolves to a boolean flag. -/
theorem parse_step_long_flag (m : machine) (name : Str) (opt : option)
    (hname : is_long_name name = true)
    (htoken : argv[m.pos]? = some ('-' :: '-' :: name))
    (hopt : find_option p name m.state.cmd = some opt)
    (hflag : opt.requires_value = false) :
    parse_step vp p argc argv m =
      .ok ⟨{ m.state with set_options := map_assign m.state.set_options opt.name opt },
        m.pos + 1, m.delivered⟩ := by
  have hp : opt.parser = none := by
    cases hq : opt.parser with
    | none => rfl
    | some h => simp [option.requires_value, hq] at hflag
  rw [parse_step_long_bare vp p argc argv m name htoken hname]
  simp [parse_long, hopt, hflag, setOption_flag vp m opt [] hp, next_pos]

/-- One iteration on a single-letter cluster that resolves to a boolean
flag. -/
theorem parse_step_short_flag (m : machine) (x : Char) (opt : option)
    (hx : is_letter x = true)
    (htoken : argv[m.pos]? = some ['-', x])
    (hopt : find_option p [x] m.state.cmd = some opt)
    (hflag : opt.requires_value = false) :
    parse_step vp p argc argv m =
      .ok ⟨{ m.state with set_options := map_assign m.state.set_options opt.name opt },
        m.pos + 1, m.delivered⟩ := by
  have hp : opt.parser = none := by
    cases hq : opt.parser with
    | none => rfl
    | some h => simp [option.requires_value, hq] at hflag
  rw [parse_step_short vp p argc argv m x [] htoken (by simp [hx])]
  have h1 := parse_short_flag vp p argc argv [] x [] 0 m opt hopt hp
  simp only [List.nil_append, List.length_nil] at h1
  simp only [List.length_nil, Nat.zero_add]
  rw [h1, parse_short_done vp p argc argv [x] 0 1 _ (by simp),
    setOption_flag vp m opt [] hp]
  rfl

/-- One iteration on `--name=V` with a non-empty value, for a value-requiring
option. -/
theorem parse_step_long_inline (m : machine) (name V : Str) (opt : option)
    (hname : is_long_name name = true) (hV : V ≠ []) (hdot : V.all is_dot = true)
    (htoken : argv[m.pos]? = some ('-' :: '-' :: (name ++ '=' :: V)))
    (hopt : find_option p name m.state.cmd = some opt)
    (hreq : opt.requires_value = true) :
    parse_step vp p argc argv m =
      .ok { (setOption vp m opt V).2 with pos := m.pos + 1 } := by
  rw [parse_step_long_value vp p argc argv m name V htoken hname hdot,
    parse_long_inline_value vp p argc argv m name V opt hV hopt hreq]
  simp [next_pos, setOption_pos]

/-- One iteration on a bare `--name`, for a value-requiring option. -/
theorem parse_step_long_next (m : machine) (name : Str) (opt : option)
    (hname : is_long_name name = true)
    (htoken : argv[m.pos]? = some ('-' :: '-' :: name))
    (hopt : find_option p name m.state.cmd = some opt)
    (hreq : opt.requires_value = true) :
    parse_step vp p argv.length argv m =
      match argv[m.pos + 1]? with
      | none => .error (.thrown (.missing_value opt.name))
      | some next =>
        if next.head? = some '-' then .error (.thrown (.missing_value opt.name))
        else .ok { (setOption vp m opt next).2 with pos := m.pos + 2 } := by
  rw [parse_step_long_bare vp p argv.length argv m name htoken hname,
    parse_long_bare_value vp p argv m name opt hopt hreq]
  cases hg : argv[m.pos + 1]? with
  | none => rfl
  | some next =>
    by_cases hn : next.head? = some '-'
    · simp [hn, next_pos]
    · simp [hn, next_pos]

theorem cluster_shape (bs : Str) (x : Char) (rest : Str) :
    ∃ c tl, bs ++ x :: rest = c :: tl ∧ tl.length + 1 = bs.length + (rest.length + 1) := by
  cases bs with
  | nil => exact ⟨x, rest, rfl, by simp⟩
  | cons b bs1 =>
    refine ⟨b, bs1 ++ x :: rest, rfl, ?_⟩
    simp only [List.length_append, List.length_cons]
    omega

/-- One iteration on a cluster, reduced to the cluster loop at the letter that
follows the flags `bs`. -/
theorem parse_step_after_flags (m : machine) (bs : Str) (x : Char) (rest : Str)
    (hletters : (bs ++ x :: rest).all is_letter = true)
    (htoken : argv[m.pos]? = some ('-' :: (bs ++ x :: rest)))
    (hflags : all_flags p m.state.cmd bs = true) :
    parse_step vp p argc argv m =
      next_pos (parse_short vp p argc argv (bs ++ x :: rest) (rest.length + 1) bs.length
        (run_flags vp p m bs)) := by
  obtain ⟨c, tl, hcr, hlen⟩ := cluster_shape bs x rest
  rw [hcr] at htoken hletters
  rw [parse_step_short vp p argc argv m c tl htoken hletters, ← hcr]
  have e3 : (0 : Nat) = ([] : Str).length := rfl
  have e1 : bs ++ x :: rest = [] ++ bs ++ x :: rest := by simp
  rw [hlen]
  conv_lhs => rw [e1, e3]
  rw [parse_short_flags vp p argc argv [] bs (x :: rest) (rest.length + 1) m hflags]
  simp only [List.nil_append, List.length_nil, Nat.zero_add]

/-- One iteration on a cluster whose last letter, after flags, is a
value-requiring option. -/
theorem parse_step_cluster_next (m : machine) (bs : Str) (x : Char) (opt : option)
    (hletters : (bs ++ [x]).all is_letter = true)
    (htoken : argv[m.pos]? = some ('-' :: (bs ++ [x])))
    (hflags : all_flags p m.state.cmd bs = true)
    (hopt : find_option p [x] m.state.cmd = some opt)
    (hreq : opt.requires_value = true) :
    parse_step vp p argv.length argv m =
      match argv[m.pos + 1]? with
      | none => .error (.thrown (.missing_value opt.name))
      | some next =>
        if next.head? = some '-' then .error (.thrown (.missing_value opt.name))
        else .ok { (setOption vp (run_flags vp p m bs) opt next).2 with pos := m.pos + 2 } := by
  rw [parse_step_after_flags vp p argv.length argv m bs x [] hletters htoken hflags]
  simp only [List.length_nil, Nat.zero_add]
  rw [parse_short_last vp p argv bs x 0 (run_flags vp p m bs) opt
    (by rw [run_flags_cmd]; exact hopt) hreq, run_flags_pos]
  cases hg : argv[m.pos + 1]? with
  | none => rfl
  | some next =>
    by_cases hn : next.head? = some '-'
    · simp [hn, next_pos]
    · simp [hn, next_pos]

/-- One iteration on a cluster whose last letter, after flags, is a flag. -/
theorem parse_step_cluster_flag (m : machine) (bs : Str) (x : Char) (opt : option)
    (hletters : (bs ++ [x]).all is_letter = true)
    (htoken : argv[m.pos]? = some ('-' :: (bs ++ [x])))
    (hflags : all_flags p m.state.cmd bs = true)
    (hopt : find_option p [x] m.state.cmd = some opt)
    (hflag : opt.requires_value = false) :
    parse_step vp p argc argv m =
      .ok { (setOption vp (run_flags vp p m bs) opt []).2 with pos := m.pos + 1 } := by
  have hp : opt.parser = none := by
    cases hq : opt.parser with
    | none => rfl
    | some h => simp [option.requires_value, hq] at hflag
  rw [parse_step_after_flags vp p argc argv m bs x [] hletters htoken hflags]
  simp only [List.length_nil, Nat.zero_add]
  rw [parse_short_flag vp p argc argv bs x [] 0 (run_flags vp p m bs) opt
    (by rw [run_flags_cmd]; exact hopt) hp,
    parse_short_done vp p argc argv (bs ++ [x]) 0 (bs.length + 1) _ (by simp)]
  simp [next_pos, setOption_pos, run_flags_pos]

/-- One iteration on `-xV`: a value-requiring first letter takes the rest of
the cluster as its value. -/
theorem parse_step_cluster_inline (m : machine) (x : Char) (rest : Str) (opt : option)
    (hrest : rest ≠ []) (hletters : (x :: rest).all is_letter = true)
    (htoken : argv[m.pos]? = some ('-' :: x :: rest))
    (hopt : find_option p [x] m.state.cmd = some opt)
    (hreq : opt.requires_value = true) :
    parse_step vp p argc argv m =
      .ok { (setOption vp m opt rest).2 with pos := m.pos + 1 } := by
  rw [parse_step_short vp p argc argv m x rest htoken hletters,
    parse_short_first vp p argc argv x rest rest.length m opt hrest hopt hreq]
  simp [next_pos, setOption_pos]

/-- One iteration on a positional token that falls on the declared argument
`arg` of the active command. -/
theorem parse_step_argument (m : machine) (t : Str) (c : command) (arg : option)
    (hcmds : p.commands ≠ []) (hc : m.state.cmd = some c)
    (harg : c.arguments[m.state.args_set]? = some arg)
    (htoken : argv[m.pos]? = some t) (hpos : (regex_match t).empty = true) :
    parse_step vp p argc argv m =
      .ok { (setOption vp
          { m with state := { m.state with args_set := m.state.args_set + 1 } }
          arg t).2 with pos := m.pos + 1 } := by
  have hlt : m.state.args_set < c.arguments.length := by
    by_contra hge
    rw [List.getElem?_eq_none (by omega)] at harg
    cases harg
  have hcond : ¬ (p.commands.length = 0 ∨ c.arguments.length ≤ m.state.args_set) := by
    intro h
    rcases h with h | h
    · exact hcmds (List.length_eq_zero.mp h)
    · omega
  rw [parse_step_positional vp p argc argv m t htoken hpos]
  simp only [parse_positional, hc, harg, Bool.or_eq_true, decide_eq_true_eq, ge_iff_le,
    hcond, if_false]
  simp [next_pos, setOption_pos]

/-! ### Options scoped to a command (claim C7) -/

/-- Claim C7: an option that the group `G` resolves under `name`, a name found
neither in the global group nor in any other group attached to the active
command, is resolved exactly when a command is active and has `G` attached.
Then the iteration on `--name=V`, on `--name`, on a cluster that ends in the
letter `name` after flags, or on `-nameV`, does with the option what the branch
prescribes (it hands it the value, marks it set, or reports not-expecting-value
or missing-value for it) and never reports option-not-found.  In every other
case a long-option token `--name` or `--name=V`, or a cluster in which the
letter `name` follows only flags, makes the iteration and the parse loop fail
with the option-not-found error carrying `name`.  After a first positional
token that selects command `c`, the token `--name=V` hands `V` to the option
exactly when `c` has `G` attached and is not found otherwise; before any
command it is not found.  In a machine that a parse reaches, an active command
with `G` attached is a registered command named by an earlier positional
token. -/
theorem group_option_needs_command (vp : Nat → Str → Bool) (p : parser) (argv : List Str)
    (m : machine) (G : option_group) (name : Str) (opt : option)
    (hG : find_option_in_group G name = some opt)
    (hglobal : find_option_in_group p.global name = none)
    (hother : ∀ c, m.state.cmd = some c → ∀ g ∈ c.groups, g ≠ G →
      find_option_in_group g name = none) :
    find_option p name m.state.cmd
      = (if attached G m.state.cmd = true then some opt else none) ∧
    (attached G m.state.cmd = false →
      (∀ V : Str, is_long_name name = true → V.all is_dot = true →
        (argv[m.pos]? = some ('-' :: '-' :: name) ∨
          argv[m.pos]? = some ('-' :: '-' :: (name ++ '=' :: V))) →
        parse_step vp p argv.length argv m = .error (.thrown (.option_not_exists name)) ∧
        ∀ fuel, parse_loop vp p argv.length argv (fuel + 1) m
          = .error (.thrown (.option_not_exists name))) ∧
      (∀ (bs : Str) (x : Char) (rest : Str), name = [x] →
        (bs ++ x :: rest).all is_letter = true →
        all_flags p m.state.cmd bs = true →
        argv[m.pos]? = some ('-' :: (bs ++ x :: rest)) →
        parse_step vp p argv.length argv m = .error (.thrown (.option_not_exists name)) ∧
        ∀ fuel, parse_loop vp p argv.length argv (fuel + 1) m
          = .error (.thrown (.option_not_exists name)))) ∧
    (reachable vp p argv.length argv m → attached G m.state.cmd = true →
      ∃ c i, m.state.cmd = some c ∧ G ∈ c.groups ∧ c ∈ p.commands ∧
        1 ≤ i ∧ i < m.pos ∧ argv[i]? = some c.name ∧
        (regex_match c.name).empty = true) ∧
    (attached G m.state.cmd = true →
      (∀ V : Str, is_long_name name = true → V ≠ [] → V.all is_dot = true →
        argv[m.pos]? = some ('-' :: '-' :: (name ++ '=' :: V)) →
        parse_step vp p argv.length argv m =
          if opt.requires_value = true then
            .ok { (setOption vp m opt V).2 with pos := m.pos + 1 }
          else .error (.thrown (.not_expecting_value opt.name))) ∧
      (is_long_name name = true → argv[m.pos]? = some ('-' :: '-' :: name) →
        parse_step vp p argv.length argv m =
          if opt.requires_value = true then
            match argv[m.pos + 1]? with
            | none => .error (.thrown (.missing_value opt.name))
            | some next =>
              if next.head? = some '-' then .error (.thrown (.missing_value opt.name))
              else .ok { (setOption vp m opt next).2 with pos := m.pos + 2 }
          else .ok { (setOption vp m opt []).2 with pos := m.pos + 1 }) ∧
      (∀ (bs : Str) (x : Char), name = [x] → (bs ++ [x]).all is_letter = true →
        all_flags p m.state.cmd bs = true →
        argv[m.pos]? = some ('-' :: (bs ++ [x])) →
        parse_step vp p argv.length argv m =
          if opt.requires_value = true then
            match argv[m.pos + 1]? with
            | none => .error (.thrown (.missing_value opt.name))
            | some next =>
              if next.head? = some '-' then .error (.thrown (.missing_value opt.name))
              else .ok { (setOption vp (run_flags vp p m bs) opt next).2 with
                pos := m.pos + 2 }
          else .ok { (setOption vp (run_flags vp p m bs) opt []).2 with
            pos := m.pos + 1 }) ∧
      (∀ (x : Char) (rest : Str), name = [x] → rest ≠ [] →
        (x :: rest).all is_letter = true → opt.requires_value = true →
        argv[m.pos]? = some ('-' :: x :: rest) →
        parse_step vp p argv.length argv m =
          .ok { (setOption vp m opt rest).2 with pos := m.pos + 1 })) ∧
    (∀ (prog V : Str) (c : command) (h : Nat),
      find_command p c.name = some c → (regex_match c.name).empty = true →
      (∀ g ∈ c.groups, g ≠ G → find_option_in_group g name = none) →
      is_long_name name = true → V ≠ [] → V.all is_dot = true → opt.parser = some h →
      parse_loop vp p 3 [prog, c.name, '-' :: '-' :: (name ++ '=' :: V)] 4 machine.init =
        (if G ∈ c.groups then
          .ok { (setOption vp ⟨⟨0, some c, [], []⟩, 2, []⟩ opt V).2 with pos := 3 }
        else .error (.thrown (.option_not_exists name))) ∧
      (setOption vp ⟨⟨0, some c, [], []⟩, 2, []⟩ opt V).2.delivered = [(h, V)] ∧
      (vp h V = true →
        (setOption vp ⟨⟨0, some c, [], []⟩, 2, []⟩ opt V).2.state.set_options
          = [(opt.name, opt)]) ∧
      parse vp p 3 [prog, '-' :: '-' :: (name ++ '=' :: V), c.name]
        = .error (.thrown (.option_not_exists name))) := by
  have hfind := find_option_scoped p G name opt m.state.cmd hG hglobal hother
  refine ⟨hfind, ?_, ?_, ?_, ?_⟩
  · intro hna
    have hnone : find_option p name m.state.cmd = none := by
      rw [hfind]
      simp [hna]
    refine ⟨?_, ?_⟩
    · intro V hname hV htoken
      have hstep : parse_step vp p argv.length argv m
          = .error (.thrown (.option_not_exists name)) := by
        cases htoken with
        | inl ht =>
          rw [parse_step_long_bare vp p argv.length argv m name ht hname,
            parse_long_unknown vp p argv.length argv m ⟨false, name, [], []⟩ hnone]
          rfl
        | inr ht =>
          rw [parse_step_long_value vp p argv.length argv m name V ht hname hV,
            parse_long_unknown vp p argv.length argv m ⟨false, name, V, []⟩ hnone]
          rfl
      have hpos : m.pos ≠ argv.length := by
        cases htoken with
        | inl ht => exact get_lt_length argv m.pos _ ht
        | inr ht => exact get_lt_length argv m.pos _ ht
      exact ⟨hstep, fun fuel => parse_loop_error vp p argv.length argv fuel m _ hpos hstep⟩
    · intro bs x rest hx hletters hflags htoken
      subst hx
      have hstep := parse_step_cluster_unknown vp p argv.length argv m bs x rest hletters
        htoken hflags hnone
      have hpos := get_lt_length argv m.pos _ htoken
      exact ⟨hstep, fun fuel => parse_loop_error vp p argv.length argv fuel m _ hpos hstep⟩
  · intro hr hatt
    cases hc : m.state.cmd with
    | none => simp [attached, hc] at hatt
    | some c =>
      simp only [attached, hc, decide_eq_true_eq] at hatt
      obtain ⟨hmem, _, i, hi1, hi2, hi3, hi4⟩ :=
        (reachable_invariant vp p argv.length argv m hr).2.2 c hc
      exact ⟨c, i, rfl, hatt, hmem, hi1, hi2, hi3, hi4⟩
  · intro hatt
    have hsome : find_option p name m.state.cmd = some opt := by
      rw [hfind]
      simp [hatt]
    refine ⟨?_, ?_, ?_, ?_⟩
    · intro V hname hV hdot htoken
      by_cases hreq : opt.requires_value = true
      · rw [if_pos hreq]
        exact parse_step_long_inline vp p argv.length argv m name V opt hname hV hdot
          htoken hsome hreq
      · rw [if_neg hreq]
        simp only [Bool.not_eq_true] at hreq
        rw [parse_step_long_value vp p argv.length argv m name V htoken hname hdot,
          parse_long_flag_value vp p argv.length argv m name V opt hV hsome hreq]
        rfl
    · intro hname htoken
      by_cases hreq : opt.requires_value = true
      · rw [if_pos hreq]
        exact parse_step_long_next vp p argv m name opt hname htoken hsome hreq
      · rw [if_neg hreq]
        simp only [Bool.not_eq_true] at hreq
        have hp : opt.parser = none := by
          cases hq : opt.parser with
          | none => rfl
          | some h => simp [option.requires_value, hq] at hreq
        rw [parse_step_long_flag vp p argv.length argv m name opt hname htoken hsome hreq,
          setOption_flag vp m opt [] hp]
    · intro bs x hx hletters hflags htoken
      subst hx
      by_cases hreq : opt.requires_value = true
      · rw [if_pos hreq]
        exact parse_step_cluster_next vp p argv m bs x opt hletters htoken hflags hsome hreq
      · rw [if_neg hreq]
        simp only [Bool.not_eq_true] at hreq
        exact parse_step_cluster_flag vp p argv.length argv m bs x opt hletters htoken
          hflags hsome hreq
    · intro x rest hx hrest hletters hreq htoken
      subst hx
      exact parse_step_cluster_inline vp p argv.length argv m x rest opt hrest hletters
        htoken hsome hreq
  · intro prog V c h hsel hcname hoc hname hV hdot hp
    have hreq : opt.requires_value = true := by simp [option.requires_value, hp]
    have hfc := find_option_scoped p G name opt (some c) hG hglobal
      (fun c1 hc1 => by
        cases hc1
        exact hoc)
    have hstep1 : parse_step vp p 3 [prog, c.name, '-' :: '-' :: (name ++ '=' :: V)]
        machine.init = .ok ⟨⟨0, some c, [], []⟩, 2, []⟩ := by
      rw [parse_step_select vp p 3 _ machine.init c.name rfl rfl hcname, hsel]
      rfl
    refine ⟨?_, ?_, ?_, ?_⟩
    · rw [parse_loop_ok vp p 3 _ 3 machine.init _ (by decide) hstep1]
      by_cases hmem : G ∈ c.groups
      · rw [if_pos hmem]
        have hsome : find_option p name
            (⟨⟨0, some c, [], []⟩, 2, []⟩ : machine).state.cmd = some opt := by
          rw [hfc]
          simp [attached, hmem]
        rw [parse_loop_ok vp p 3 _ 2 ⟨⟨0, some c, [], []⟩, 2, []⟩ _ (by simp)
          (parse_step_long_inline vp p 3 _ ⟨⟨0, some c, [], []⟩, 2, []⟩ name V opt hname hV
            hdot rfl hsome hreq)]
        apply parse_loop_end
        rfl
      · rw [if_neg hmem]
        have hnone : find_option p name
            (⟨⟨0, some c, [], []⟩, 2, []⟩ : machine).state.cmd = none := by
          rw [hfc]
          simp [attached, hmem]
        apply parse_loop_error vp p 3 _ 2 ⟨⟨0, some c, [], []⟩, 2, []⟩ _ (by simp)
        rw [parse_step_long_value vp p 3 _ ⟨⟨0, some c, [], []⟩, 2, []⟩ name V rfl hname
          hdot, parse_long_unknown vp p 3 _ _ ⟨false, name, V, []⟩ hnone]
        rfl
    · rw [setOption_delivered vp _ opt V h hp]
      rfl
    · intro hacc
      rw [setOption_accept vp _ opt V h hp hacc]
      rfl
    · have hnone : find_option p name machine.init.state.cmd = none := by
        simp [find_option, hglobal, machine.init, option_state.init]
      have hstep : parse_step vp p 3 [prog, '-' :: '-' :: (name ++ '=' :: V), c.name]
          machine.init = .error (.thrown (.option_not_exists name)) := by
        rw [parse_step_long_value vp p 3 _ machine.init name V rfl hname hdot,
          parse_long_unknown vp p 3 _ _ ⟨false, name, V, []⟩ hnone]
        rfl
      have hloop := parse_loop_error vp p 3
        [prog, '-' :: '-' :: (name ++ '=' :: V), c.name] 3 machine.init _ (by decide) hstep
      simp [parse, parse_machine, hloop]

/-- Witness for claim C7, on the registry of `example.cpp`: after `play` the
option `log-level` of the group `Log Options` resolves and the iteration on
`--log-level=debug` hands it `debug` and records it; the whole argument vector
hands `debug` and `/games/x`; before a command is selected, or under
`fuzztest`, which has no group attached, the option is not found. -/
theorem group_option_needs_command_witness :
    find_option example_registry "log-level".toList (some play_command)
      = some ⟨false, "log-level".toList, [], "log-level".toList,
          "Only display logs with severity equal to or greater than this level.".toList,
          some 0⟩ ∧
    parse_step accept_all example_registry 4
        ["prog".toList, "play".toList, "--log-level=debug".toList, "/games/x".toList]
        ⟨⟨0, some play_command, [], []⟩, 2, []⟩
      = .ok ⟨⟨0, some play_command,
          [("log-level".toList, ⟨false, "log-level".toList, [], "log-level".toList,
            "Only display logs with severity equal to or greater than this level.".toList,
            some 0⟩)], []⟩, 3, [(0, "debug".toList)]⟩ ∧
    (parse_machine accept_all example_registry 4
        ["prog".toList, "play".toList, "--log-level=debug".toList, "/games/x".toList]).map
          (fun m => m.delivered)
      = .ok [(0, "debug".toList), (3, "/games/x".toList)] ∧
    parse accept_all example_registry 4
        ["prog".toList, "--log-level=debug".toList, "play".toList, "/games/x".toList]
      = .error (.thrown (.option_not_exists "log-level".toList)) ∧
    parse accept_all example_registry 3
        ["prog".toList, "fuzztest".toList, "--log-level=debug".toList]
      = .error (.thrown (.option_not_exists "log-level".toList)) :=
  ⟨(group_option_needs_command accept_all example_registry
      ["prog".toList, "play".toList, "--log-level=debug".toList, "/games/x".toList]
      ⟨⟨0, some play_command, [], []⟩, 2, []⟩ log_options "log-level".toList
      ⟨false, "log-level".toList, [], "log-level".toList,
        "Only display logs with severity equal to or greater than this level.".toList,
        some 0⟩
      (by decide) (by decide) (by decide)).1,
   ((group_option_needs_command accept_all example_registry
      ["prog".toList, "play".toList, "--log-level=debug".toList, "/games/x".toList]
      ⟨⟨0, some play_command, [], []⟩, 2, []⟩ log_options "log-level".toList
      ⟨false, "log-level".toList, [], "log-level".toList,
        "Only display logs with severity equal to or greater than this level.".toList,
        some 0⟩
      (by decide) (by decide) (by decide)).2.2.2.1 (by decide)).1
      "debug".toList (by decide) (by decide) (by decide) (by decide),
    by decide, by decide, by decide⟩

/-! ### End-of-input check and rejected values (claims C11, C12) -/

theorem first_required_eq (l : List option) :
    first_required l = l.find? (fun a => !a.optional) := by
  induction l with
  | nil => rfl
  | cons a l ih =>
    cases ha : a.optional <;> simp [first_required, List.find?, ha, ih]

theorem check_arguments_eq (state : option_state) (c : command)
    (hc : state.cmd = some c) :
    check_arguments state =
      match (c.arguments.drop state.args_set).find? (fun a => !a.optional) with
      | some a => .error (.thrown (.command_missing_argument c.name a.name))
      | none => .ok () := by
  simp only [check_arguments, hc, first_required_eq]
  by_cases h : state.args_set < c.arguments.length
  · simp only [h, if_true]
  · have hd : c.arguments.drop state.args_set = [] := List.drop_eq_nil_of_le (by omega)
    simp [h, hd]

/-- Claim C11: once the loop has consumed all tokens without error and a
command `c` is active, `parse` fails with the command-missing-argument error
exactly when some declared argument at index `args_set` or later is not marked
optional; the error carries the command name and the name of the first such
argument in declaration order; when all unfilled arguments are optional the
state is returned. -/
theorem end_of_input_check (vp : Nat → Str → Bool) (p : parser) (argc : Nat)
    (argv : List Str) (m : machine) (c : command)
    (hloop : parse_loop vp p argc argv (argc + 1) machine.init = .ok m)
    (hcmd : m.state.cmd = some c) :
    parse vp p argc argv =
      (match (c.arguments.drop m.state.args_set).find? (fun a => !a.optional) with
        | some a => .error (.thrown (.command_missing_argument c.name a.name))
        | none => .ok m.state) ∧
    ((∃ cn an, parse vp p argc argv = .error (.thrown (.command_missing_argument cn an))) ↔
      ∃ a ∈ c.arguments.drop m.state.args_set, a.optional = false) ∧
    ((∀ a ∈ c.arguments.drop m.state.args_set, a.optional = true) →
      parse vp p argc argv = .ok m.state) := by
  have hparse : parse vp p argc argv =
      (match (c.arguments.drop m.state.args_set).find? (fun a => !a.optional) with
        | some a => .error (.thrown (.command_missing_argument c.name a.name))
        | none => .ok m.state) := by
    simp only [parse, parse_machine, hloop, check_arguments_eq m.state c hcmd]
    all_goals
      (cases (c.arguments.drop m.state.args_set).find? (fun a => !a.optional) <;> rfl)
  refine ⟨hparse, ?_, ?_⟩
  · rw [hparse]
    constructor
    · rintro ⟨cn, an, h⟩
      cases hf : (c.arguments.drop m.state.args_set).find? (fun a => !a.optional) with
      | none => simp [hf] at h
      | some a =>
        have hmem := List.mem_of_find?_eq_some hf
        have hp := List.find?_some hf
        exact ⟨a, hmem, by simpa using hp⟩
    · rintro ⟨a, hmem, ha⟩
      cases hf : (c.arguments.drop m.state.args_set).find? (fun a => !a.optional) with
      | none =>
        rw [List.find?_eq_none] at hf
        have := hf a hmem
        simp [ha] at this
      | some b => exact ⟨c.name, b.name, rfl⟩
  · intro hall
    rw [hparse]
    have hf : (c.arguments.drop m.state.args_set).find? (fun a => !a.optional) = none := by
      rw [List.find?_eq_none]
      intro a ha
      simp [hall a ha]
    rw [hf]

/-- Witness for claim C11 on the registry of `example.cpp`: `play` alone fails
naming `game directory`. -/
theorem end_of_input_check_witness :
    parse accept_all example_registry 2 ["prog".toList, "play".toList]
      = .error (.thrown (.command_missing_argument "play".toList "game directory".toList)) ∧
    parse accept_all example_registry 3 ["prog".toList, "play".toList, "/games/x".toList]
      = .ok ⟨1, some play_command, [("game directory".toList, game_directory)], []⟩ :=
  ⟨(end_of_input_check accept_all example_registry 2 ["prog".toList, "play".toList]
      ⟨⟨0, some play_command, [], []⟩, 2, []⟩ play_command (by decide) rfl).1,
   (end_of_input_check accept_all example_registry 3
      ["prog".toList, "play".toList, "/games/x".toList]
      ⟨⟨1, some play_command, [("game directory".toList, game_directory)], []⟩, 3,
        [(3, "/games/x".toList)]⟩ play_command (by decide) rfl).1⟩

/-- A rejected value changes nothing but the log of handed strings: the
`false` returned by `set_option` is all that tells the caller. -/
theorem setOption_reject (m : machine) (o : option) (v : Str) (h : Nat)
    (hp : o.parser = some h) (hv : vp h v = false) :
    setOption vp m o v = (false, { m with delivered := m.delivered ++ [(h, v)] }) := by
  simp [setOption, hp, hv]

/-- Claim C12, evaluated on the registry and values of `example.cpp`: the
value `bogus` is rejected by the value-conversion object of `log-level`, yet
the parse succeeds and returns a state in which `log-level` is merely not
recorded; likewise a rejected positional argument is counted but not
recorded. -/
theorem rejected_value_not_fatal :
    example_values 0 "bogus".toList = false ∧
    parse_machine example_values example_registry 4
        ["prog".toList, "play".toList, "--log-level=bogus".toList, "/games/x".toList]
      = .ok ⟨⟨1, some play_command, [("game directory".toList, game_directory)], []⟩, 4,
          [(0, "bogus".toList), (3, "/games/x".toList)]⟩ ∧
    parse reject_all example_registry 3 ["prog".toList, "play".toList, "/games/x".toList]
      = .ok ⟨1, some play_command, [], []⟩ := by
  decide

/-! ### Keys of the recorded options -/

theorem mem_map_assign (s : List (Str × option)) (k : Str) (v : option)
    (k1 : Str) (v1 : option) (h : (k1, v1) ∈ map_assign s k v) :
    (k1, v1) ∈ s ∨ (k1 = k ∧ v1 = v) := by
  induction s with
  | nil =>
    simp only [map_assign, List.mem_singleton, Prod.mk.injEq] at h
    exact Or.inr h
  | cons e s ih =>
    obtain ⟨k0, v0⟩ := e
    by_cases h0 : k = k0
    · have h1 : (k1, v1) ∈ (k, v) :: s := by
        simpa only [map_assign, h0, if_true] using h
      rcases List.mem_cons.mp h1 with e | h2
      · exact Or.inr ⟨(Prod.mk.inj e).1, (Prod.mk.inj e).2⟩
      · exact Or.inl (List.mem_cons_of_mem _ h2)
    · by_cases hlt : str_lt k k0 = true
      · have h1 : (k1, v1) ∈ (k, v) :: (k0, v0) :: s := by
          simpa only [map_assign, h0, hlt, if_true, if_false] using h
        rcases List.mem_cons.mp h1 with e | h2
        · exact Or.inr ⟨(Prod.mk.inj e).1, (Prod.mk.inj e).2⟩
        · exact Or.inl h2
      · have h1 : (k1, v1) ∈ (k0, v0) :: map_assign s k v := by
          simpa only [map_assign, h0, hlt, if_false] using h
        rcases List.mem_cons.mp h1 with e | h2
        · left
          rw [e]
          exact List.mem_cons_self _ _
        · rcases ih h2 with h3 | h3
          · exact Or.inl (List.mem_cons_of_mem _ h3)
          · exact Or.inr h3

theorem canonical_keys_assign (s : List (Str × option)) (o : option)
    (h : canonical_keys s) : canonical_keys (map_assign s o.name o) := by
  intro k v hmem
  rcases mem_map_assign s o.name o k v hmem with h1 | ⟨h1, h2⟩
  · exact h k v h1
  · rw [h1, h2]

/-- The map after `set_option`: as before, or with the option assigned under
its canonical name. -/
theorem setOption_set_options (m : machine) (o : option) (v : Str) :
    (setOption vp m o v).2.state.set_options = m.state.set_options ∨
    (setOption vp m o v).2.state.set_options
      = map_assign m.state.set_options o.name o := by
  unfold setOption
  cases hp : o.parser with
  | none => exact Or.inr rfl
  | some h =>
    by_cases hv : vp h v = true
    · simp [hv]
    · simp [hv]

/-- When the value is accepted, or the option takes none, `set_option` assigns
the option under its canonical name. -/
theorem setOption_recorded (m : machine) (o : option) (v : Str)
    (hacc : ∀ h, o.parser = some h → vp h v = true) :
    (setOption vp m o v).2.state.set_options
      = map_assign m.state.set_options o.name o := by
  unfold setOption
  cases hp : o.parser with
  | none => rfl
  | some h => simp [hacc h hp]

theorem setOption_canonical (m : machine) (o : option) (v : Str)
    (h : canonical_keys m.state.set_options) :
    canonical_keys (setOption vp m o v).2.state.set_options := by
  rcases setOption_set_options vp m o v with h1 | h1
  · rw [h1]
    exact h
  · rw [h1]
    exact canonical_keys_assign _ o h

theorem parse_short_canonical (s : Str) (fuel i : Nat) (m m1 : machine)
    (h : parse_short vp p argc argv s fuel i m = .ok m1)
    (hk : canonical_keys m.state.set_options) :
    canonical_keys m1.state.set_options := by
  induction fuel generalizing i m with
  | zero =>
    by_cases hi : i < s.length
    · simp [parse_short, hi] at h
    · simp only [parse_short, hi, if_false, Except.ok.injEq] at h
      subst h
      exact hk
  | succ n ih =>
    rw [parse_short] at h
    by_cases hi : i < s.length
    · simp only [hi, if_true] at h
      cases ho : find_option p (substr s i 1) m.state.cmd with
      | none => simp [ho] at h
      | some opt =>
        simp only [ho] at h
        by_cases hreq : opt.requires_value = true
        · simp only [hreq, Bool.not_true, Bool.false_eq_true, if_false] at h
          by_cases hlast : i = s.length - 1
          · simp only [hlast, if_true] at h
            cases hvalid : is_valid_value argc argv (m.pos + 1) with
            | error f => simp [hvalid] at h
            | ok b =>
              cases b with
              | false => simp [hvalid] at h
              | true =>
                simp only [hvalid] at h
                cases hg : argv[m.pos + 1]? with
                | none => simp [hg] at h
                | some value =>
                  simp only [hg] at h
                  exact ih _ _ h (setOption_canonical vp m opt value hk)
          · simp only [hlast, if_false] at h
            by_cases h0 : i = 0
            · simp only [h0, if_true, Except.ok.injEq] at h
              subst h
              exact setOption_canonical vp m opt _ hk
            · simp [h0] at h
        · simp only [Bool.not_eq_true] at hreq
          simp only [hreq, Bool.not_false, if_true] at h
          exact ih _ _ h (setOption_canonical vp m opt [] hk)
    · simp only [hi, if_false, Except.ok.injEq] at h
      subst h
      exact hk

theorem parse_long_canonical (r : match_results) (m m1 : machine)
    (h : parse_long vp p argc argv r m = .ok m1)
    (hk : canonical_keys m.state.set_options) :
    canonical_keys m1.state.set_options := by
  unfold parse_long at h
  cases ho : find_option p r.sub1 m.state.cmd with
  | none => simp [ho] at h
  | some opt =>
    simp only [ho] at h
    by_cases h3 : r.sub3.length ≠ 0
    · rw [if_pos h3] at h
      by_cases hreq : opt.requires_value = true
      · simp only [hreq, Bool.not_true, Bool.false_eq_true, if_false,
          Except.ok.injEq] at h
        subst h
        exact setOption_canonical vp m opt _ hk
      · simp only [Bool.not_eq_true] at hreq
        simp [hreq] at h
    · rw [if_neg h3] at h
      by_cases hreq : opt.requires_value = true
      · simp only [hreq, Bool.not_true, Bool.false_eq_true, if_false] at h
        cases hvalid : is_valid_value argc argv (m.pos + 1) with
        | error f => simp [hvalid] at h
        | ok b =>
          cases b with
          | false => simp [hvalid] at h
          | true =>
            simp only [hvalid] at h
            cases hg : argv[m.pos + 1]? with
            | none => simp [hg] at h
            | some value =>
              simp only [hg, Except.ok.injEq] at h
              subst h
              exact setOption_canonical vp m opt value hk
      · simp only [Bool.not_eq_true] at hreq
        simp only [hreq, Bool.not_false, if_true, Except.ok.injEq] at h
        subst h
        exact setOption_canonical vp m opt [] hk

theorem parse_positional_canonical (m m1 : machine) (t : Str)
    (h : parse_positional vp p m t = .ok m1)
    (hk : canonical_keys m.state.set_options) :
    canonical_keys m1.state.set_options := by
  unfold parse_positional at h
  cases hc : m.state.cmd with
  | none =>
    simp only [hc] at h
    by_cases hcond : ((find_command p t).isNone && decide (p.commands.length ≠ 0)) = true
    · rw [if_pos hcond] at h
      cases h
    · rw [if_neg hcond] at h
      simp only [Except.ok.injEq] at h
      subst h
      exact hk
  | some c =>
    simp only [hc] at h
    by_cases hcond : (decide (p.commands.length = 0) ||
        decide (m.state.args_set ≥ c.arguments.length)) = true
    · rw [if_pos hcond] at h
      simp only [Except.ok.injEq] at h
      subst h
      exact hk
    · rw [if_neg hcond] at h
      cases ha : c.arguments[m.state.args_set]? with
      | none => simp [ha] at h
      | some arg =>
        simp only [ha, Except.ok.injEq] at h
        subst h
        exact setOption_canonical vp _ arg t hk

/-- A completed iteration keeps every entry of the map under the canonical
name of its option. -/
theorem parse_step_canonical (m m1 : machine)
    (h : parse_step vp p argc argv m = .ok m1)
    (hk : canonical_keys m.state.set_options) :
    canonical_keys m1.state.set_options := by
  unfold parse_step at h
  cases hg : argv[m.pos]? with
  | none => simp [hg] at h
  | some token =>
    simp only [hg] at h
    obtain ⟨m0, hbody, rfl⟩ := next_pos_ok _ _ h
    by_cases hempty : (regex_match token).empty = true
    · rw [if_pos hempty] at hbody
      exact parse_positional_canonical vp p m m0 token hbody hk
    · rw [if_neg hempty] at hbody
      by_cases h4 : (regex_match token).sub4.length ≠ 0
      · rw [if_pos h4] at hbody
        exact parse_short_canonical vp p argc argv _ _ _ m m0 hbody hk
      · rw [if_neg h4] at hbody
        by_cases h1 : (regex_match token).sub1.length ≠ 0
        · rw [if_pos h1] at hbody
          exact parse_long_canonical vp p argc argv _ m m0 hbody hk
        · rw [if_neg h1] at hbody
          simp only [Except.ok.injEq] at hbody
          subst hbody
          exact hk

theorem parse_loop_canonical (fuel : Nat) (m m1 : machine)
    (h : parse_loop vp p argc argv fuel m = .ok m1)
    (hk : canonical_keys m.state.set_options) :
    canonical_keys m1.state.set_options := by
  induction fuel generalizing m with
  | zero =>
    by_cases hpos : m.pos = argc
    · rw [parse_loop_end vp p argc argv 0 m hpos] at h
      cases h
      exact hk
    · simp [parse_loop, hpos] at h
  | succ n ih =>
    by_cases hpos : m.pos = argc
    · rw [parse_loop_end vp p argc argv (n + 1) m hpos] at h
      cases h
      exact hk
    · cases hs : parse_step vp p argc argv m with
      | error f =>
        rw [parse_loop_error vp p argc argv n m f hpos hs] at h
        cases h
      | ok m2 =>
        rw [parse_loop_ok vp p argc argv n m m2 hpos hs] at h
        exact ih m2 h (parse_step_canonical vp p argc argv m m2 hs hk)

/-- Every option that a successful parse reports set is stored under its
canonical name. -/
theorem parse_canonical (state : option_state)
    (h : parse vp p argc argv = .ok state) : canonical_keys state.set_options := by
  unfold parse parse_machine at h
  cases hl : parse_loop vp p argc argv (argc + 1) machine.init with
  | error f => simp [hl] at h
  | ok m =>
    simp only [hl] at h
    cases hc : check_arguments m.state with
    | error f => simp [hc] at h
    | ok u =>
      simp only [hc, Except.ok.injEq] at h
      subst h
      apply parse_loop_canonical vp p argc argv (argc + 1) machine.init m hl
      intro k o hmem
      cases hmem

/-- The flags of a cluster stay recorded while the later flags are set. -/
theorem run_flags_records (m : machine) (bs : Str) (name : Str)
    (h : (map_find m.state.set_options name).isSome = true) :
    (map_find (run_flags vp p m bs).state.set_options name).isSome = true := by
  induction bs generalizing m with
  | nil => exact h
  | cons b bs ih =>
    unfold run_flags
    cases ho : find_option p [b] m.state.cmd with
    | none => exact ih m h
    | some o =>
      apply ih
      rcases setOption_set_options vp m o [] with h1 | h1
      · rw [h1]
        exact h
      · rw [h1, map_find_assign]
        by_cases hn : o.name = name
        · simp [hn]
        · simp [hn, h]

/-! ### Registration of options (claims C13, C14, C18) -/

theorem find_first_of_split (left right : Str) (hl : ',' ∉ left) :
    find_first_of (left ++ ',' :: right) ',' = some left.length := by
  induction left with
  | nil => simp [find_first_of]
  | cons a l ih =>
    have ha : a ≠ ',' := fun h => hl (h ▸ List.mem_cons_self _ _)
    have hl1 : ',' ∉ l := fun h => hl (List.mem_cons_of_mem _ h)
    simp [find_first_of, ha, ih hl1]

theorem find_first_of_none (name : Str) (h : ',' ∉ name) :
    find_first_of name ',' = none := by
  induction name with
  | nil => rfl
  | cons a l ih =>
    have ha : a ≠ ',' := fun e => h (e ▸ List.mem_cons_self _ _)
    have hl1 : ',' ∉ l := fun e => h (List.mem_cons_of_mem _ e)
    simp [find_first_of, ha, ih hl1]

/-- Every spec string that contains a comma splits at its first comma. -/
theorem spec_with_comma_splits (name : Str) (h : ',' ∈ name) :
    ∃ left right, ',' ∉ left ∧ name = left ++ ',' :: right := by
  induction name with
  | nil => cases h
  | cons a l ih =>
    by_cases ha : a = ','
    · exact ⟨[], l, by simp, by simp [ha]⟩
    · have hl : ',' ∈ l := by
        rcases List.mem_cons.mp h with e | e
        · exact absurd e.symm ha
        · exact e
      obtain ⟨left, right, h1, h2⟩ := ih hl
      refine ⟨a :: left, right, ?_, by simp [h2]⟩
      simp only [List.mem_cons, not_or]
      exact ⟨fun e => ha e.symm, h1⟩

/-- The call `add_option` on a spec with a comma, `left` before the first
comma and `right` after it. -/
theorem add_option_comma (group : option_group) (left right description : Str)
    (parser : Option Nat) (hl : ',' ∉ left) :
    add_option group (left ++ ',' :: right) description parser =
      if left.length = 1 then
        .ok ⟨group.name, group.options ++
          [⟨false, if right.isEmpty then left else right, left, right, description, parser⟩]⟩
      else if right.length = 1 then
        .ok ⟨group.name, group.options ++
          [⟨false, if left.isEmpty then right else left, right, left, description, parser⟩]⟩
      else .error (.invalid_option_name (left ++ ',' :: right)) := by
  have hsub1 : substr (left ++ ',' :: right) 0 left.length = left := by
    simp [substr]
  have hsub2 : substr_from (left ++ ',' :: right) (left.length + 1) = right :=
    substr_from_at left ',' right
  simp only [add_option, find_first_of_split left right hl, hsub1, hsub2]
  by_cases h1 : left.length = 1
  · simp [h1]
  · by_cases h2 : right.length = 1
    · simp [h1, h2]
    · simp [h1, h2]

/-- The call `add_option` on a spec without comma. -/
theorem add_option_plain (group : option_group) (name description : Str)
    (parser : Option Nat) (hn : ',' ∉ name) :
    add_option group name description parser =
      if name.length = 1 then
        .ok ⟨group.name, group.options ++ [⟨false, name, name, [], description, parser⟩]⟩
      else
        .ok ⟨group.name, group.options ++ [⟨false, name, [], name, description, parser⟩]⟩ := by
  simp only [add_option, find_first_of_none name hn]
  by_cases h1 : name.length = 1
  · simp [h1]
  · have : name.isEmpty = true ∨ name.isEmpty = false := by
      cases name.isEmpty <;> simp
    rcases this with he | he
    · have : name = [] := by simpa using he
      subst this
      simp
    · simp [h1, he]

/-- Counterexample to claim C13: in the spec `a,b` both sides have length 1,
so it is not the case that exactly one side has length 1, yet `add_option`
succeeds and stores short name `a` and long name `b`. -/
theorem add_option_both_short_counterexample :
    add_option ⟨"G".toList, []⟩ "a,b".toList [] none
      = .ok ⟨"G".toList, [⟨false, "b".toList, "a".toList, "b".toList, [], none⟩]⟩ := by
  decide

/-- Claim C13 as amended: for a spec with a comma, `left` the text before the
first comma and `right` the text after it, `add_option` fails with the
invalid-option-name error exactly when neither side has length 1; a failing
call leaves the option list of the group as it was; when `left` has length 1
it becomes the short name and `right` the long name (also when `right` has
length 1 as well), otherwise `right`, of length 1, becomes the short name and
`left` the long name. -/
theorem add_option_comma_rule (group : option_group) (left right description : Str)
    (parser : Option Nat) (hl : ',' ∉ left) :
    (add_option group (left ++ ',' :: right) description parser
        = .error (.invalid_option_name (left ++ ',' :: right)) ↔
      left.length ≠ 1 ∧ right.length ≠ 1) ∧
    ((∃ e, add_option group (left ++ ',' :: right) description parser = .error e) →
      (group_after group
        (add_option group (left ++ ',' :: right) description parser)).options
        = group.options) ∧
    (left.length = 1 →
      ∃ opt, add_option group (left ++ ',' :: right) description parser
          = .ok ⟨group.name, group.options ++ [opt]⟩ ∧
        opt.shortName = left ∧ opt.longName = right) ∧
    (left.length ≠ 1 → right.length = 1 →
      ∃ opt, add_option group (left ++ ',' :: right) description parser
          = .ok ⟨group.name, group.options ++ [opt]⟩ ∧
        opt.shortName = right ∧ opt.longName = left) := by
  have h := add_option_comma group left right description parser hl
  refine ⟨?_, ?_, ?_, ?_⟩
  · rw [h]
    by_cases h1 : left.length = 1
    · simp [h1]
    · by_cases h2 : right.length = 1
      · simp [h1, h2]
      · simp [h1, h2]
  · rintro ⟨e, he⟩
    rw [he]
    rfl
  · intro h1
    rw [h, if_pos h1]
    exact ⟨_, rfl, rfl, rfl⟩
  · intro h1 h2
    rw [h, if_neg h1, if_pos h2]
    exact ⟨_, rfl, rfl, rfl⟩

/-- Witness for the amended claim C13: `ab,cd` is refused, `v,version` is
stored. -/
theorem add_option_comma_rule_witness :
    add_option ⟨"G".toList, []⟩ "ab,cd".toList [] none
      = .error (.invalid_option_name "ab,cd".toList) ∧
    ∃ opt, add_option ⟨"G".toList, []⟩ "v,version".toList [] none
        = .ok ⟨"G".toList, [] ++ [opt]⟩ ∧
      opt.shortName = "v".toList ∧ opt.longName = "version".toList :=
  ⟨(add_option_comma_rule ⟨"G".toList, []⟩ "ab".toList "cd".toList [] none
      (by decide)).1.mpr (by decide),
   (add_option_comma_rule ⟨"G".toList, []⟩ "v".toList "version".toList [] none
      (by decide)).2.2.1 (by decide)⟩

/-- Every successful `add_option` appends one option whose canonical name is
its long name when that is not empty and its short name otherwise, and whose
short name has at most one character. -/
theorem add_option_stored (group : option_group) (name description : Str)
    (parser : Option Nat) (group1 : option_group)
    (h : add_option group name description parser = .ok group1) :
    ∃ opt, group1 = ⟨group.name, group.options ++ [opt]⟩ ∧
      opt.name = (if opt.longName.isEmpty then opt.shortName else opt.longName) ∧
      opt.description = description ∧ opt.parser = parser ∧ opt.optional = false ∧
      opt.shortName.length ≤ 1 ∧
      (name ≠ [] → opt.shortName ≠ [] ∨ opt.longName ≠ []) := by
  cases hf : find_first_of name ',' with
  | none =>
    simp only [add_option, hf] at h
    by_cases h1 : name.length = 1
    · simp only [h1, if_true, Except.ok.injEq] at h
      subst h
      refine ⟨_, rfl, by simp, rfl, rfl, rfl, by simp [h1], ?_⟩
      intro hne
      exact Or.inl hne
    · simp only [h1, if_false, Except.ok.injEq] at h
      subst h
      refine ⟨_, rfl, ?_, rfl, rfl, rfl, by simp, ?_⟩
      · cases name <;> simp
      · intro hne
        exact Or.inr hne
  | some cpos =>
    simp only [add_option, hf] at h
    by_cases h1 : (substr name 0 cpos).length = 1
    · simp only [h1, if_true, Except.ok.injEq] at h
      subst h
      refine ⟨_, rfl, rfl, rfl, rfl, rfl, by simp [h1], ?_⟩
      intro _
      left
      intro he
      simp only at he
      rw [he] at h1
      cases h1
    · by_cases h2 : (substr_from name (cpos + 1)).length = 1
      · simp only [h1, h2, if_true, if_false, Except.ok.injEq] at h
        subst h
        refine ⟨_, rfl, rfl, rfl, rfl, rfl, by simp [h2], ?_⟩
        intro _
        left
        intro he
        simp only at he
        rw [he] at h2
        cases h2
      · simp [h1, h2] at h

/-- Whenever `set_option` reports success, the option is found in the map
under its canonical name. -/
theorem setOption_records (m : machine) (o : option) (v : Str)
    (h : (setOption vp m o v).1 = true) :
    map_find (setOption vp m o v).2.state.set_options o.name = some o := by
  unfold setOption at h ⊢
  cases hp : o.parser with
  | none => simp [map_find_assign]
  | some k =>
    simp only [hp] at h ⊢
    by_cases hv : vp k v = true
    · simp [hv, map_find_assign]
    · simp [hv] at h

/-- Every flag of a cluster is recorded under its canonical name once the
flags of the cluster have been set. -/
theorem run_flags_member (m : machine) (bs : Str) (b : Char) (ob : option)
    (hb : b ∈ bs) (hflags : all_flags p m.state.cmd bs = true)
    (hob : find_option p [b] m.state.cmd = some ob) :
    (map_find (run_flags vp p m bs).state.set_options ob.name).isSome = true := by
  induction bs generalizing m with
  | nil => cases hb
  | cons a bs ih =>
    simp only [all_flags, List.all_cons, Bool.and_eq_true] at hflags
    obtain ⟨ha, hrest⟩ := hflags
    cases hoa : find_option p [a] m.state.cmd with
    | none => simp [hoa] at ha
    | some oa =>
      have hpa : oa.parser = none := by
        cases hq : oa.parser with
        | none => rfl
        | some h => simp [hoa, option.requires_value, hq] at ha
      simp only [run_flags, hoa]
      rcases List.mem_cons.mp hb with e | hmem
      · subst e
        rw [hoa] at hob
        cases hob
        apply run_flags_records
        rw [setOption_flag vp m ob [] hpa]
        simp [map_find_assign]
      · apply ih _ hmem
        · rw [setOption_cmd]
          exact hrest
        · rw [setOption_cmd]
          exact hob

/-- Claim C14: an option stored by `add_option` has as canonical name its long
name when that is not empty and its short name otherwise; an argument added by
`add_argument` keeps the literal name; and `parse` records a set option under
the canonical name whichever form names it on the command line.  Wherever
`set_option` reports success the map holds the option under that name.  A
flag given as `--long` or as a letter of a cluster, a value-requiring option
given as `--long=V`, `--long V`, `-xV` or as the last letter of a cluster
before `V`, and a declared argument given as a positional token, are each
assigned in the map under their canonical name by the iteration.  Every entry
of the map in a state that `parse` returns is stored under the canonical name
of its option.  For the global boolean option registered as `v,version`, after
`-v` the state has `version` and has not `v`. -/
theorem canonical_name_recorded (vp : Nat → Str → Bool) (p : parser)
    (argv : List Str) (m : machine) (opt : option) :
    (∀ (group group1 : option_group) (name description : Str) (parser : Option Nat),
      add_option group name description parser = .ok group1 →
      ∃ o, group1 = ⟨group.name, group.options ++ [o]⟩ ∧
        o.name = (if o.longName.isEmpty then o.shortName else o.longName)) ∧
    (∀ (cmd : command) (name description : Str) (parser : Option Nat) (optional : Bool),
      ∃ a, add_argument cmd name description parser optional
          = ⟨cmd.name, cmd.arguments ++ [a], cmd.groups⟩ ∧ a.name = name) ∧
    (∀ (m0 : machine) (o : option) (v : Str), (setOption vp m0 o v).1 = true →
      map_find (setOption vp m0 o v).2.state.set_options o.name = some o) ∧
    (opt.requires_value = false →
      (∀ name : Str, is_long_name name = true →
        argv[m.pos]? = some ('-' :: '-' :: name) →
        find_option p name m.state.cmd = some opt →
        ∃ m1, parse_step vp p argv.length argv m = .ok m1 ∧
          m1.state.set_options = map_assign m.state.set_options opt.name opt ∧
          map_find m1.state.set_options opt.name = some opt) ∧
      (∀ (bs : Str) (x : Char), (bs ++ [x]).all is_letter = true →
        argv[m.pos]? = some ('-' :: (bs ++ [x])) →
        all_flags p m.state.cmd bs = true →
        find_option p [x] m.state.cmd = some opt →
        ∃ m1, parse_step vp p argv.length argv m = .ok m1 ∧
          m1.state.set_options
            = map_assign (run_flags vp p m bs).state.set_options opt.name opt ∧
          map_find m1.state.set_options opt.name = some opt)) ∧
    (opt.requires_value = true →
      ∀ V : Str, (∀ h, opt.parser = some h → vp h V = true) →
        (∀ name : Str, is_long_name name = true → V ≠ [] → V.all is_dot = true →
          argv[m.pos]? = some ('-' :: '-' :: (name ++ '=' :: V)) →
          find_option p name m.state.cmd = some opt →
          ∃ m1, parse_step vp p argv.length argv m = .ok m1 ∧
            m1.state.set_options = map_assign m.state.set_options opt.name opt ∧
            map_find m1.state.set_options opt.name = some opt) ∧
        (∀ name : Str, is_long_name name = true →
          argv[m.pos]? = some ('-' :: '-' :: name) →
          argv[m.pos + 1]? = some V → V.head? ≠ some '-' →
          find_option p name m.state.cmd = some opt →
          ∃ m1, parse_step vp p argv.length argv m = .ok m1 ∧
            m1.state.set_options = map_assign m.state.set_options opt.name opt ∧
            map_find m1.state.set_options opt.name = some opt) ∧
        (∀ x : Char, V ≠ [] → (x :: V).all is_letter = true →
          argv[m.pos]? = some ('-' :: x :: V) →
          find_option p [x] m.state.cmd = some opt →
          ∃ m1, parse_step vp p argv.length argv m = .ok m1 ∧
            m1.state.set_options = map_assign m.state.set_options opt.name opt ∧
            map_find m1.state.set_options opt.name = some opt) ∧
        (∀ (bs : Str) (x : Char), (bs ++ [x]).all is_letter = true →
          argv[m.pos]? = some ('-' :: (bs ++ [x])) →
          all_flags p m.state.cmd bs = true →
          argv[m.pos + 1]? = some V → V.head? ≠ some '-' →
          find_option p [x] m.state.cmd = some opt →
          ∃ m1, parse_step vp p argv.length argv m = .ok m1 ∧
            m1.state.set_options
              = map_assign (run_flags vp p m bs).state.set_options opt.name opt ∧
            map_find m1.state.set_options opt.name = some opt)) ∧
    (∀ (bs : Str) (b : Char) (ob : option), b ∈ bs →
      all_flags p m.state.cmd bs = true →
      find_option p [b] m.state.cmd = some ob →
      (map_find (run_flags vp p m bs).state.set_options ob.name).isSome = true) ∧
    (∀ (c : command) (t : Str), p.commands ≠ [] → m.state.cmd = some c →
      c.arguments[m.state.args_set]? = some opt →
      argv[m.pos]? = some t → (regex_match t).empty = true →
      (∀ h, opt.parser = some h → vp h t = true) →
      ∃ m1, parse_step vp p argv.length argv m = .ok m1 ∧
        m1.state.set_options = map_assign m.state.set_options opt.name opt ∧
        map_find m1.state.set_options opt.name = some opt) ∧
    (∀ (argc : Nat) (state : option_state), parse vp p argc argv = .ok state →
      ∀ k o, (k, o) ∈ state.set_options → k = o.name) ∧
    (∀ (g : option_group) (prog : Str),
      add_option ⟨"Global Options".toList, []⟩ "v,version".toList [] none = .ok g →
      ∃ state, parse vp ⟨g, [], []⟩ 2 [prog, "-v".toList] = .ok state ∧
        state.has "version".toList = true ∧ state.has "v".toList = false) := by
  refine ⟨?_, ?_, ?_, ?_, ?_, ?_, ?_, ?_, ?_⟩
  · intro group group1 name description parser h
    obtain ⟨o, h1, h2, _⟩ := add_option_stored group name description parser group1 h
    exact ⟨o, h1, h2⟩
  · intro cmd name description parser optional
    exact ⟨_, rfl, rfl⟩
  · intro m0 o v h
    exact setOption_records vp m0 o v h
  · intro hflag
    have hp : opt.parser = none := by
      cases hq : opt.parser with
      | none => rfl
      | some h => simp [option.requires_value, hq] at hflag
    refine ⟨?_, ?_⟩
    · intro name hname htoken hopt
      refine ⟨_, parse_step_long_flag vp p argv.length argv m name opt hname htoken hopt
        hflag, rfl, ?_⟩
      simp [map_find_assign]
    · intro bs x hletters htoken hflags hopt
      refine ⟨_, parse_step_cluster_flag vp p argv.length argv m bs x opt hletters htoken
        hflags hopt hflag, ?_, ?_⟩
      · simp only [setOption_flag vp _ opt [] hp]
      · simp only [setOption_flag vp _ opt [] hp]
        simp [map_find_assign]
  · intro hreq V hacc
    refine ⟨?_, ?_, ?_, ?_⟩
    · intro name hname hV hdot htoken hopt
      refine ⟨_, parse_step_long_inline vp p argv.length argv m name V opt hname hV hdot
        htoken hopt hreq, ?_, ?_⟩
      · simp only [setOption_recorded vp m opt V hacc]
      · simp only [setOption_recorded vp m opt V hacc]
        simp [map_find_assign]
    · intro name hname htoken hnext hdash hopt
      have hstep := parse_step_long_next vp p argv m name opt hname htoken hopt hreq
      simp only [hnext, hdash, if_false] at hstep
      refine ⟨_, hstep, ?_, ?_⟩
      · simp only [setOption_recorded vp m opt V hacc]
      · simp only [setOption_recorded vp m opt V hacc]
        simp [map_find_assign]
    · intro x hV hletters htoken hopt
      refine ⟨_, parse_step_cluster_inline vp p argv.length argv m x V opt hV hletters
        htoken hopt hreq, ?_, ?_⟩
      · simp only [setOption_recorded vp m opt V hacc]
      · simp only [setOption_recorded vp m opt V hacc]
        simp [map_find_assign]
    · intro bs x hletters htoken hflags hnext hdash hopt
      have hstep := parse_step_cluster_next vp p argv m bs x opt hletters htoken hflags
        hopt hreq
      simp only [hnext, hdash, if_false] at hstep
      refine ⟨_, hstep, ?_, ?_⟩
      · simp only [setOption_recorded vp _ opt V hacc]
      · simp only [setOption_recorded vp _ opt V hacc]
        simp [map_find_assign]
  · intro bs b ob hb hflags hob
    exact run_flags_member vp p m bs b ob hb hflags hob
  · intro c t hcmds hc harg htoken hpos hacc
    refine ⟨_, parse_step_argument vp p argv.length argv m t c opt hcmds hc harg htoken
      hpos, ?_, ?_⟩
    · simp only [setOption_recorded vp _ opt t hacc]
    · simp only [setOption_recorded vp _ opt t hacc]
      simp [map_find_assign]
  · intro argc state hparse k o hmem
    exact parse_canonical vp p argc argv state hparse k o hmem
  · intro g prog hg
    have hg1 : g = ⟨"Global Options".toList,
        [⟨false, "version".toList, "v".toList, "version".toList, [], none⟩]⟩ := by
      have : add_option ⟨"Global Options".toList, []⟩ "v,version".toList [] none
          = .ok ⟨"Global Options".toList,
            [⟨false, "version".toList, "v".toList, "version".toList, [], none⟩]⟩ := by
        decide
      rw [this] at hg
      exact (Except.ok.inj hg).symm
    subst hg1
    have hstep := parse_step_short_flag vp
      ⟨⟨"Global Options".toList,
        [⟨false, "version".toList, "v".toList, "version".toList, [], none⟩]⟩, [], []⟩
      2 [prog, "-v".toList] machine.init 'v'
      ⟨false, "version".toList, "v".toList, "version".toList, [], none⟩
      (by decide) rfl (by decide) (by decide)
    have hm := parse_machine_one_step vp _ 2 [prog, "-v".toList] _ (by decide) hstep rfl rfl
    refine ⟨⟨0, none, [("version".toList,
        ⟨false, "version".toList, "v".toList, "version".toList, [], none⟩)], []⟩, ?_, ?_, ?_⟩
    · simp only [parse, hm]
      rfl
    · decide
    · decide

/-- Witness for claim C14 on the registry with the options `v,version` and
`o,opt`: the flag given as `-v`, and the value-requiring option given as
`--opt=val`, `--opt val`, `-oval` and `-abo val`, each recorded under the long
name. -/
theorem canonical_name_recorded_witness :
    (∃ state, parse accept_all
        ⟨⟨"Global Options".toList,
          [⟨false, "version".toList, "v".toList, "version".toList, [], none⟩]⟩, [], []⟩ 2
        ["prog".toList, "-v".toList] = .ok state ∧
      state.has "version".toList = true ∧ state.has "v".toList = false) ∧
    (∃ m1, parse_step accept_all flat_registry 2
        ["prog".toList, "--opt=val".toList] machine.init = .ok m1 ∧
      m1.state.set_options = map_assign machine.init.state.set_options "opt".toList
        ⟨false, "opt".toList, "o".toList, "opt".toList, [], some 1⟩ ∧
      map_find m1.state.set_options "opt".toList
        = some ⟨false, "opt".toList, "o".toList, "opt".toList, [], some 1⟩) ∧
    (∃ m1, parse_step accept_all flat_registry 2
        ["prog".toList, "-oval".toList] machine.init = .ok m1 ∧
      m1.state.set_options = map_assign machine.init.state.set_options "opt".toList
        ⟨false, "opt".toList, "o".toList, "opt".toList, [], some 1⟩ ∧
      map_find m1.state.set_options "opt".toList
        = some ⟨false, "opt".toList, "o".toList, "opt".toList, [], some 1⟩) ∧
    (∃ m1, parse_step accept_all flat_registry 3
        ["prog".toList, "-abo".toList, "val".toList] machine.init = .ok m1 ∧
      m1.state.set_options = map_assign
        (run_flags accept_all flat_registry machine.init "ab".toList).state.set_options
        "opt".toList ⟨false, "opt".toList, "o".toList, "opt".toList, [], some 1⟩ ∧
      map_find m1.state.set_options "opt".toList
        = some ⟨false, "opt".toList, "o".toList, "opt".toList, [], some 1⟩) :=
  ⟨(canonical_name_recorded accept_all flat_registry ["prog".toList, "-v".toList]
      machine.init ⟨false, "version".toList, "v".toList, "version".toList, [], none⟩
      ).2.2.2.2.2.2.2.2
      ⟨"Global Options".toList,
        [⟨false, "version".toList, "v".toList, "version".toList, [], none⟩]⟩
      "prog".toList (by decide),
   ((canonical_name_recorded accept_all flat_registry ["prog".toList, "--opt=val".toList]
      machine.init ⟨false, "opt".toList, "o".toList, "opt".toList, [], some 1⟩
      ).2.2.2.2.1 (by decide) "val".toList (fun _ _ => rfl)).1
      "opt".toList (by decide) (by decide) (by decide) (by decide) (by decide),
   ((canonical_name_recorded accept_all flat_registry ["prog".toList, "-oval".toList]
      machine.init ⟨false, "opt".toList, "o".toList, "opt".toList, [], some 1⟩
      ).2.2.2.2.1 (by decide) "val".toList (fun _ _ => rfl)).2.2.1
      'o' (by decide) (by decide) (by decide) (by decide),
   ((canonical_name_recorded accept_all flat_registry
      ["prog".toList, "-abo".toList, "val".toList]
      machine.init ⟨false, "opt".toList, "o".toList, "opt".toList, [], some 1⟩
      ).2.2.2.2.1 (by decide) "val".toList (fun _ _ => rfl)).2.2.2
      "ab".toList 'o' (by decide) (by decide) (by decide) (by decide) (by decide)
      (by decide)⟩

/-- Counterexample to claim C18: the empty spec string is accepted, and the
option stored for it has neither a short nor a long name. -/
theorem add_option_empty_counterexample :
    add_option ⟨"G".toList, []⟩ [] [] none
      = .ok ⟨"G".toList, [⟨false, [], [], [], [], none⟩]⟩ := by
  decide

/-- Claim C18 as amended: for every spec string other than the empty string,
with or without a comma, every option that a successful `add_option` stores
has a short name of at most one character and a short name or a long name that
is not empty.  (The bound on the short name holds for the empty spec too.) -/
theorem add_option_names_invariant (group group1 : option_group)
    (name description : Str) (parser : Option Nat)
    (h : add_option group name description parser = .ok group1) :
    ∃ opt, group1.options = group.options ++ [opt] ∧
      opt.shortName.length ≤ 1 ∧
      (name ≠ [] → opt.shortName ≠ [] ∨ opt.longName ≠ []) := by
  obtain ⟨o, h1, _, _, _, _, h6, h7⟩ :=
    add_option_stored group name description parser group1 h
  exact ⟨o, by rw [h1], h6, h7⟩

/-- Witness for the amended claim C18: the spec `x,` with an empty side. -/
theorem add_option_names_invariant_witness :
    ∃ opt, (⟨"G".toList, [⟨false, "x".toList, "x".toList, [], [], none⟩]⟩ :
        option_group).options = [] ++ [opt] ∧
      opt.shortName.length ≤ 1 ∧
      ("x,".toList ≠ [] → opt.shortName ≠ [] ∨ opt.longName ≠ []) :=
  add_option_names_invariant ⟨"G".toList, []⟩
    ⟨"G".toList, [⟨false, "x".toList, "x".toList, [], [], none⟩]⟩ "x,".toList [] none
    (by decide)

/-! ### A lone boolean long option (claim C15) -/

/-- Claim C15: when `flag` is a well-formed long name that resolves, with no
command active, to a boolean option, parsing `--flag` alone succeeds, and the
returned state reports as set exactly the canonical name of that option: no
command is selected, nothing is left over, no argument is counted. -/
theorem long_flag_sets_only_itself (vp : Nat → Str → Bool) (p : parser) (prog flag : Str)
    (opt : option) (hname : is_long_name flag = true)
    (hres : find_option p flag none = some opt)
    (hflag : opt.requires_value = false) :
    parse vp p 2 [prog, '-' :: '-' :: flag] = .ok ⟨0, none, [(opt.name, opt)], []⟩ ∧
    (∀ n : Str, (⟨0, none, [(opt.name, opt)], []⟩ : option_state).has n = true ↔
      n = opt.name) := by
  have hstep := parse_step_long_flag vp p 2 [prog, '-' :: '-' :: flag] machine.init flag opt
    hname rfl hres hflag
  have hm := parse_machine_one_step vp p 2 [prog, '-' :: '-' :: flag] _ (by decide) hstep
    rfl rfl
  refine ⟨by simp only [parse, hm]; rfl, ?_⟩
  intro n
  simp only [option_state.has, map_find]
  by_cases hn : opt.name = n
  · simp [hn]
  · have hn1 : ¬ n = opt.name := fun e => hn e.symm
    simp [hn, hn1]

/-- Witness for claim C15: `--version` on a registry with other options. -/
theorem long_flag_sets_only_itself_witness :
    parse accept_all flat_registry 2 ["prog".toList, "--version".toList]
      = .ok ⟨0, none, [("version".toList,
          ⟨false, "version".toList, "v".toList, "version".toList, [], none⟩)], []⟩ :=
  (long_flag_sets_only_itself accept_all flat_registry "prog".toList "version".toList
    ⟨false, "version".toList, "v".toList, "version".toList, [], none⟩
    (by decide) (by decide) (by decide)).1

/-! ### Help formatter (claims C16, C17) -/

theorem foldl_append_eq {α : Type} (g : Str → α → Str) (f : α → Str)
    (hg : ∀ os x, g os x = os ++ f x) (xs : List α) (init : Str) :
    xs.foldl g init = init ++ concat_map f xs := by
  induction xs generalizing init with
  | nil => simp [concat_map]
  | cons x xs ih => simp [concat_map, ih, hg]

theorem concat_map_append {α : Type} (f : α → Str) (xs ys : List α) :
    concat_map f (xs ++ ys) = concat_map f xs ++ concat_map f ys := by
  induction xs with
  | nil => rfl
  | cons x xs ih => simp [concat_map, ih]

theorem concat_map_congr {α : Type} (f g : α → Str) (xs : List α)
    (h : ∀ x ∈ xs, f x = g x) : concat_map f xs = concat_map g xs := by
  induction xs with
  | nil => rfl
  | cons x xs ih =>
    simp only [concat_map]
    rw [h x (List.mem_cons_self _ _), ih (fun y hy => h y (List.mem_cons_of_mem _ hy))]

theorem format_command_option_eq (os : Str) (o : option) :
    format_command_option os o = os ++ format_command_option [] o := by
  simp only [format_command_option]
  by_cases h1 : o.name.length = 1 <;> by_cases h2 : o.requires_value = true <;>
    simp [h1, h2]

theorem format_command_options_eq (os : Str) (opts : List option) :
    opts.foldl format_command_option os = os ++ concat_map (format_command_option []) opts := by
  induction opts generalizing os with
  | nil => simp [concat_map]
  | cons o opts ih =>
    simp only [List.foldl_cons, concat_map]
    rw [ih, format_command_option_eq os o, List.append_assoc]

theorem format_command_groups_eq (os : Str) (gs : List option_group) :
    gs.foldl (fun os group => group.options.foldl format_command_option os) os
      = os ++ concat_map (format_command_option []) (group_options gs) := by
  induction gs generalizing os with
  | nil => simp [concat_map, group_options]
  | cons g gs ih =>
    simp only [List.foldl_cons, group_options, concat_map_append]
    rw [ih, format_command_options_eq, List.append_assoc]

/-- The text `format_command` builds, with the items as the code renders
them, from the field `name`. -/
theorem format_command_eq (cmd : command) :
    format_command cmd = cmd.name ++
      concat_map (format_command_option []) (group_options cmd.groups) ++
      concat_map usage_argument cmd.arguments := by
  simp only [format_command, format_command_groups_eq]
  exact foldl_append_eq _ usage_argument
    (fun os a => by simp [usage_argument]) cmd.arguments _

theorem find_command_none_iff (name : Str) :
    find_command p name = none ↔ ∀ c ∈ p.commands, c.name ≠ name := by
  rw [find_command, find_command_in_eq, List.find?_eq_none]
  simp

/-- Claim C16: for a `cmd_name` that names no registered command,
`format_help(n, cmd_name)` is the line `Command <cmd_name> not found.` followed
by the whole-registry help `format_help(n)`; for a registered `cmd_name` it is
the `Usage:` heading, the usage line of that command, the global option group
and the groups attached to that command in attachment order, and nothing else:
the text is the same in every registry with the same global group that
resolves `cmd_name` to the same command. -/
theorem format_help_for_command (dv : Nat → Option Str) (p : parser) (n cmd_name : Str) :
    ((∀ c ∈ p.commands, c.name ≠ cmd_name) →
      format_help_command dv p n cmd_name =
        "Command ".toList ++ cmd_name ++ " not found.".toList ++ endl ++
          format_help dv p n) ∧
    (∀ c, find_command p cmd_name = some c →
      format_help_command dv p n cmd_name =
        "Usage:".toList ++ endl ++
          ("  ".toList ++ n ++ " ".toList ++ format_command c ++ endl) ++
          (format_option_group dv p.global ++ endl) ++
          concat_map (fun g => format_option_group dv g ++ endl) c.groups) ∧
    (∀ (p2 : parser) (c : command), p2.global = p.global →
      find_command p cmd_name = some c → find_command p2 cmd_name = some c →
      format_help_command dv p2 n cmd_name = format_help_command dv p n cmd_name) := by
  have hreg : ∀ (q : parser) (c : command), find_command q cmd_name = some c →
      format_help_command dv q n cmd_name =
        "Usage:".toList ++ endl ++
          ("  ".toList ++ n ++ " ".toList ++ format_command c ++ endl) ++
          (format_option_group dv q.global ++ endl) ++
          concat_map (fun g => format_option_group dv g ++ endl) c.groups := by
    intro q c hc
    simp only [format_help_command, hc]
    rw [foldl_append_eq _ (fun g => format_option_group dv g ++ endl)
      (fun os g => by simp)]
    simp only [List.nil_append, List.append_assoc]
  refine ⟨?_, hreg p, ?_⟩
  · intro hnone
    have hf := (find_command_none_iff p cmd_name).mpr hnone
    simp only [format_help_command, hf, List.nil_append]
  · intro p2 c hg h1 h2
    rw [hreg p c h1, hreg p2 c h2, hg]

/-- Witness for claim C16 on the registry of `example.cpp`: the unknown
command `nope`, the registered command `fuzztest`, and the registered command
`play` with its three attached groups. -/
theorem format_help_for_command_witness :
    format_help_command example_defaults example_registry "prog".toList "nope".toList =
      "Command ".toList ++ "nope".toList ++ " not found.".toList ++ endl ++
        format_help example_defaults example_registry "prog".toList ∧
    format_help_command example_defaults example_registry "prog".toList "fuzztest".toList =
      "Usage:".toList ++ endl ++
        ("  ".toList ++ "prog".toList ++ " ".toList ++
          format_command ⟨"fuzztest".toList, [], []⟩ ++ endl) ++
        (format_option_group example_defaults example_registry.global ++ endl) ++
        concat_map (fun g => format_option_group example_defaults g ++ endl) [] ∧
    format_help_command example_defaults example_registry "prog".toList "play".toList =
      "Usage:".toList ++ endl ++
        ("  ".toList ++ "prog".toList ++ " ".toList ++ format_command play_command ++ endl) ++
        (format_option_group example_defaults example_registry.global ++ endl) ++
        concat_map (fun g => format_option_group example_defaults g ++ endl)
          [jit_options, log_options, sys_options] :=
  ⟨(format_help_for_command example_defaults example_registry "prog".toList
      "nope".toList).1 (by decide),
   (format_help_for_command example_defaults example_registry "prog".toList
      "fuzztest".toList).2.1 ⟨"fuzztest".toList, [], []⟩ (by decide),
   (format_help_for_command example_defaults example_registry "prog".toList
      "play".toList).2.1 play_command (by decide)⟩

/-- Counterexample to claim C17: the spec `a,b` registers a boolean option with
the long name `b`; the usage line shows it as ` [-b]`, not as ` [--b]`. -/
theorem format_command_short_long_counterexample :
    add_option ⟨"G".toList, []⟩ "a,b".toList [] none
      = .ok ⟨"G".toList, [⟨false, "b".toList, "a".toList, "b".toList, [], none⟩]⟩ ∧
    format_command ⟨"cmd".toList, [],
        [⟨"G".toList, [⟨false, "b".toList, "a".toList, "b".toList, [], none⟩]⟩]⟩
      = "cmd [-b]".toList := by
  decide

/-- Claim C17 as amended: for a command whose attached groups hold options
with canonical names, `format_command(cmd)` is the command name, then one
usage item for each option of each attached group (groups in attachment order,
options in registration order), then ` <name>` for each declared argument in
declaration order.  The item is ` [-x]` for a short-only boolean option,
` [--long]` for a boolean option with a long name of more than one character
and ` [--long=<long>]` for a value-requiring one; a long name of exactly one
character is shown after a single dash. -/
theorem format_command_usage (cmd : command)
    (hcanon : ∀ o ∈ group_options cmd.groups,
      o.name = (if o.longName.isEmpty then o.shortName else o.longName)) :
    format_command cmd = cmd.name ++ concat_map usage_item (group_options cmd.groups) ++
      concat_map usage_argument cmd.arguments ∧
    (∀ (o : option) (x : Char), o.longName = [] → o.shortName = [x] →
      o.requires_value = false → usage_item o = " [-".toList ++ [x] ++ "]".toList) ∧
    (∀ o : option, 2 ≤ o.longName.length → o.requires_value = false →
      usage_item o = " [--".toList ++ o.longName ++ "]".toList) ∧
    (∀ o : option, 2 ≤ o.longName.length → o.requires_value = true →
      usage_item o =
        " [--".toList ++ o.longName ++ "=<".toList ++ o.longName ++ ">]".toList) ∧
    (∀ (o : option) (x : Char), o.longName = [x] → o.requires_value = false →
      usage_item o = " [-".toList ++ [x] ++ "]".toList) := by
  refine ⟨?_, ?_, ?_, ?_, ?_⟩
  · rw [format_command_eq]
    congr 2
    apply concat_map_congr
    intro o ho
    have hn := hcanon o ho
    simp only [format_command_option, usage_item, ← hn]
    by_cases h1 : o.name.length = 1 <;> by_cases h2 : o.requires_value = true <;>
      simp [h1, h2]
  · intro o x hl hs hv
    simp [usage_item, hl, hs, hv]
  · intro o hl hv
    have h1 : o.longName.isEmpty = false := by
      cases hq : o.longName with
      | nil => simp [hq] at hl
      | cons a l => rfl
    have h2 : o.longName.length ≠ 1 := by omega
    simp [usage_item, h1, h2, hv]
  · intro o hl hv
    have h1 : o.longName.isEmpty = false := by
      cases hq : o.longName with
      | nil => simp [hq] at hl
      | cons a l => rfl
    have h2 : o.longName.length ≠ 1 := by omega
    simp [usage_item, h1, h2, hv]
  · intro o x hl hv
    simp [usage_item, hl, hv]

/-- Witness for the amended claim C17: the usage line of `play` in
`example.cpp`. -/
theorem format_command_usage_witness :
    format_command play_command = play_command.name ++
      concat_map usage_item (group_options play_command.groups) ++
      concat_map usage_argument play_command.arguments :=
  (format_command_usage play_command (by decide)).1

/-! ### Termination and index safety of the loop (claim C19) -/

theorem is_valid_value_true (i : Nat)
    (h : is_valid_value argv.length argv i = .ok true) :
    i < argv.length ∧ ∃ t, argv[i]? = some t := by
  rw [is_valid_value_eq] at h
  cases hg : argv[i]? with
  | none => simp [hg] at h
  | some t =>
    refine ⟨?_, t, rfl⟩
    by_contra hge
    rw [List.getElem?_eq_none (by omega)] at hg
    cases hg

theorem parse_short_result (s : Str) (fuel i : Nat) (m : machine)
    (r : Except fault machine) (hfuel : s.length ≤ i + fuel)
    (h : parse_short vp p argv.length argv s fuel i m = r) :
    (∃ e, r = .error (.thrown e)) ∨
    (∃ m1, r = .ok m1 ∧
      (m1.pos = m.pos ∨
        (m1.pos = m.pos + 1 ∧ is_valid_value argv.length argv (m.pos + 1) = .ok true))) := by
  induction fuel generalizing i m with
  | zero =>
    rw [parse_short_done vp p argv.length argv s 0 i m (by omega)] at h
    exact Or.inr ⟨m, h.symm, Or.inl rfl⟩
  | succ n ih =>
    by_cases hi : i < s.length
    · rw [parse_short] at h
      simp only [hi, if_true] at h
      cases ho : find_option p (substr s i 1) m.state.cmd with
      | none =>
        simp only [ho] at h
        exact Or.inl ⟨_, h.symm⟩
      | some opt =>
        simp only [ho] at h
        by_cases hreq : opt.requires_value = true
        · simp only [hreq, Bool.not_true, Bool.false_eq_true, if_false] at h
          by_cases hlast : i = s.length - 1
          · simp only [hlast, if_true] at h
            cases hvalid : is_valid_value argv.length argv (m.pos + 1) with
            | error f =>
              rw [is_valid_value_eq] at hvalid
              cases hvalid
            | ok b =>
              cases b with
              | false =>
                simp only [hvalid] at h
                exact Or.inl ⟨_, h.symm⟩
              | true =>
                obtain ⟨_, t, ht⟩ := is_valid_value_true argv (m.pos + 1) hvalid
                simp only [hvalid, ht] at h
                rw [parse_short_done vp p argv.length argv s n _ _ (by omega)] at h
                refine Or.inr ⟨_, h.symm, Or.inr ⟨?_, rfl⟩⟩
                simp only [setOption_pos]
          · simp only [hlast, if_false] at h
            by_cases h0 : i = 0
            · simp only [h0, if_true] at h
              exact Or.inr ⟨_, h.symm, Or.inl (setOption_pos vp m opt _)⟩
            · simp only [h0, if_false] at h
              exact Or.inl ⟨_, h.symm⟩
        · simp only [Bool.not_eq_true] at hreq
          simp only [hreq, Bool.not_false, if_true] at h
          have := ih (i + 1) (setOption vp m opt []).2 (by omega) h
          simp only [setOption_pos] at this
          exact this
    · rw [parse_short_done vp p argv.length argv s (n + 1) i m (by omega)] at h
      exact Or.inr ⟨m, h.symm, Or.inl rfl⟩

/-- The cluster loop, given enough budget, either throws one of the parse
exceptions or ends with the cursor where it was or one further, the latter
only after `is_valid_value` accepted the next index. -/
theorem parse_short_safe (s : Str) (fuel i : Nat) (m : machine)
    (hfuel : s.length ≤ i + fuel) :
    (∃ e, parse_short vp p argv.length argv s fuel i m = .error (.thrown e)) ∨
    (∃ m1, parse_short vp p argv.length argv s fuel i m = .ok m1 ∧
      (m1.pos = m.pos ∨
        (m1.pos = m.pos + 1 ∧ is_valid_value argv.length argv (m.pos + 1) = .ok true))) :=
  parse_short_result vp p argv s fuel i m _ hfuel rfl

theorem parse_long_result (res : match_results) (m : machine) (r : Except fault machine)
    (h : parse_long vp p argv.length argv res m = r) :
    (∃ e, r = .error (.thrown e)) ∨
    (∃ m1, r = .ok m1 ∧
      (m1.pos = m.pos ∨
        (m1.pos = m.pos + 1 ∧ is_valid_value argv.length argv (m.pos + 1) = .ok true))) := by
  unfold parse_long at h
  cases ho : find_option p res.sub1 m.state.cmd with
  | none =>
    simp only [ho] at h
    exact Or.inl ⟨_, h.symm⟩
  | some opt =>
    simp only [ho] at h
    by_cases h3 : res.sub3.length ≠ 0
    · rw [if_pos h3] at h
      by_cases hreq : opt.requires_value = true
      · simp only [hreq, Bool.not_true, Bool.false_eq_true, if_false] at h
        exact Or.inr ⟨_, h.symm, Or.inl (setOption_pos vp m opt _)⟩
      · simp only [Bool.not_eq_true] at hreq
        simp only [hreq, Bool.not_false, if_true] at h
        exact Or.inl ⟨_, h.symm⟩
    · rw [if_neg h3] at h
      by_cases hreq : opt.requires_value = true
      · simp only [hreq, Bool.not_true, Bool.false_eq_true, if_false] at h
        cases hvalid : is_valid_value argv.length argv (m.pos + 1) with
        | error f =>
          rw [is_valid_value_eq] at hvalid
          cases hvalid
        | ok b =>
          cases b with
          | false =>
            simp only [hvalid] at h
            exact Or.inl ⟨_, h.symm⟩
          | true =>
            obtain ⟨_, t, ht⟩ := is_valid_value_true argv (m.pos + 1) hvalid
            simp only [hvalid, ht] at h
            refine Or.inr ⟨_, h.symm, Or.inr ⟨?_, rfl⟩⟩
            simp only [setOption_pos]
      · simp only [Bool.not_eq_true] at hreq
        simp only [hreq, Bool.not_false, if_true] at h
        exact Or.inr ⟨_, h.symm, Or.inl (setOption_pos vp m opt _)⟩

/-- The long-option branch either throws one of the parse exceptions or ends
with the cursor where it was or one further, the latter only after
`is_valid_value` accepted the next index. -/
theorem parse_long_safe (r : match_results) (m : machine) :
    (∃ e, parse_long vp p argv.length argv r m = .error (.thrown e)) ∨
    (∃ m1, parse_long vp p argv.length argv r m = .ok m1 ∧
      (m1.pos = m.pos ∨
        (m1.pos = m.pos + 1 ∧ is_valid_value argv.length argv (m.pos + 1) = .ok true))) :=
  parse_long_result vp p argv r m _ rfl

theorem parse_positional_result (m : machine) (t : Str) (r : Except fault machine)
    (h : parse_positional vp p m t = r) :
    (∃ e, r = .error (.thrown e)) ∨ (∃ m1, r = .ok m1 ∧ m1.pos = m.pos) := by
  unfold parse_positional at h
  cases hc : m.state.cmd with
  | none =>
    simp only [hc] at h
    by_cases hcond : ((find_command p t).isNone && decide (p.commands.length ≠ 0)) = true
    · rw [if_pos hcond] at h
      exact Or.inl ⟨_, h.symm⟩
    · rw [if_neg hcond] at h
      exact Or.inr ⟨_, h.symm, rfl⟩
  | some c =>
    simp only [hc] at h
    by_cases hcond : (decide (p.commands.length = 0) ||
        decide (m.state.args_set ≥ c.arguments.length)) = true
    · rw [if_pos hcond] at h
      exact Or.inr ⟨_, h.symm, rfl⟩
    · rw [if_neg hcond] at h
      simp only [Bool.or_eq_true, decide_eq_true_eq, not_or, not_le, ge_iff_le] at hcond
      rw [List.getElem?_eq_getElem hcond.2] at h
      exact Or.inr ⟨_, h.symm, setOption_pos vp _ _ _⟩

/-- The positional branch either throws option-not-found or ends with the
cursor where it was; it never reads outside the argument list of the
command. -/
theorem parse_positional_safe (m : machine) (t : Str) :
    (∃ e, parse_positional vp p m t = .error (.thrown e)) ∨
    (∃ m1, parse_positional vp p m t = .ok m1 ∧ m1.pos = m.pos) :=
  parse_positional_result vp p m t _ rfl

theorem parse_step_result (m : machine) (r : Except fault machine)
    (hpos : m.pos < argv.length) (h : parse_step vp p argv.length argv m = r) :
    (∃ e, r = .error (.thrown e)) ∨
    (∃ m1, r = .ok m1 ∧
      (m1.pos = m.pos + 1 ∨
        (m1.pos = m.pos + 2 ∧
          is_valid_value argv.length argv (m.pos + 1) = .ok true))) := by
  unfold parse_step at h
  rw [List.getElem?_eq_getElem hpos] at h
  simp only [] at h
  by_cases hempty : (regex_match argv[m.pos]).empty = true
  · rw [if_pos hempty] at h
    rcases parse_positional_safe vp p m argv[m.pos] with ⟨e, he⟩ | ⟨m1, h1, h2⟩
    · rw [he] at h
      exact Or.inl ⟨e, h.symm⟩
    · rw [h1] at h
      exact Or.inr ⟨_, h.symm, Or.inl (by simp only [h2])⟩
  · rw [if_neg hempty] at h
    by_cases h4 : (regex_match argv[m.pos]).sub4.length ≠ 0
    · rw [if_pos h4] at h
      rcases parse_short_safe vp p argv (regex_match argv[m.pos]).sub4
        (regex_match argv[m.pos]).sub4.length 0 m (by omega)
        with ⟨e, he⟩ | ⟨m1, h1, h2⟩
      · rw [he] at h
        exact Or.inl ⟨e, h.symm⟩
      · rw [h1] at h
        refine Or.inr ⟨_, h.symm, ?_⟩
        rcases h2 with h2 | ⟨h2, h3⟩
        · exact Or.inl (by simp only [h2])
        · exact Or.inr ⟨by simp only [h2], h3⟩
    · rw [if_neg h4] at h
      by_cases h1 : (regex_match argv[m.pos]).sub1.length ≠ 0
      · rw [if_pos h1] at h
        rcases parse_long_safe vp p argv (regex_match argv[m.pos]) m
          with ⟨e, he⟩ | ⟨m1, h1, h2⟩
        · rw [he] at h
          exact Or.inl ⟨e, h.symm⟩
        · rw [h1] at h
          refine Or.inr ⟨_, h.symm, ?_⟩
          rcases h2 with h2 | ⟨h2, h3⟩
          · exact Or.inl (by simp only [h2])
          · exact Or.inr ⟨by simp only [h2], h3⟩
      · rw [if_neg h1] at h
        exact Or.inr ⟨_, h.symm, Or.inl rfl⟩

/-- One iteration with the cursor inside `argv` either throws one of the parse
exceptions or completes with the cursor one further, or two further after
`is_valid_value` accepted the index in between. -/
theorem parse_step_safe (m : machine) (hpos : m.pos < argv.length) :
    (∃ e, parse_step vp p argv.length argv m = .error (.thrown e)) ∨
    (∃ m1, parse_step vp p argv.length argv m = .ok m1 ∧
      (m1.pos = m.pos + 1 ∨
        (m1.pos = m.pos + 2 ∧
          is_valid_value argv.length argv (m.pos + 1) = .ok true))) :=
  parse_step_result vp p argv m _ hpos rfl

/-- The loop, started with the cursor inside or at the end of `argv` and with a
budget of at least the number of tokens left, either throws one of the parse
exceptions or ends with the cursor equal to `argc`. -/
theorem parse_loop_safe (fuel : Nat) (m : machine)
    (hpos : m.pos ≤ argv.length) (hfuel : argv.length - m.pos ≤ fuel) :
    (∃ e, parse_loop vp p argv.length argv fuel m = .error (.thrown e)) ∨
    (∃ m1, parse_loop vp p argv.length argv fuel m = .ok m1 ∧ m1.pos = argv.length) := by
  induction fuel generalizing m with
  | zero =>
    have : m.pos = argv.length := by omega
    exact Or.inr ⟨m, parse_loop_end vp p argv.length argv 0 m this, this⟩
  | succ n ih =>
    by_cases hend : m.pos = argv.length
    · exact Or.inr ⟨m, parse_loop_end vp p argv.length argv (n + 1) m hend, hend⟩
    · have hlt : m.pos < argv.length := by omega
      rcases parse_step_safe vp p argv m hlt with ⟨e, he⟩ | ⟨m1, h1, h2⟩
      · exact Or.inl ⟨e, parse_loop_error vp p argv.length argv n m _ hend he⟩
      · rw [parse_loop_ok vp p argv.length argv n m m1 hend h1]
        have hle : m1.pos ≤ argv.length := by
          rcases h2 with h2 | ⟨h2, h3⟩
          · omega
          · have := (is_valid_value_true argv (m.pos + 1) h3).1
            omega
        have hgt : m.pos < m1.pos := by
          rcases h2 with h2 | ⟨h2, _⟩ <;> omega
        exact ih m1 hle (by omega)

/-- Claim C19: for an argument vector with `argc ≥ 1` the parse loop ends
within `argc - 1` iterations, either by one of the parse exceptions or with the
cursor exactly equal to `argc`; it never reads outside `argv` or outside the
argument list of the command, and never runs out of budget.  A completed
iteration moves the cursor by one, or by two after `is_valid_value` confirmed
`pos + 1 < argc`; so every machine at the head of the loop has its cursor
between 1 and `argc`. -/
theorem parse_loop_terminates_in_range (vp : Nat → Str → Bool) (p : parser)
    (argv : List Str) (hargc : 1 ≤ argv.length) :
    (∀ fuel, argv.length - 1 ≤ fuel →
      (∃ e, parse_loop vp p argv.length argv fuel machine.init = .error (.thrown e)) ∨
      (∃ m, parse_loop vp p argv.length argv fuel machine.init = .ok m ∧
        m.pos = argv.length)) ∧
    (∀ m m1, m.pos < argv.length → parse_step vp p argv.length argv m = .ok m1 →
      m1.pos = m.pos + 1 ∨
      (m1.pos = m.pos + 2 ∧ is_valid_value argv.length argv (m.pos + 1) = .ok true ∧
        m.pos + 1 < argv.length)) ∧
    (∀ m, m.pos < argv.length →
      parse_step vp p argv.length argv m ≠ .error .out_of_range ∧
      parse_step vp p argv.length argv m ≠ .error .out_of_fuel) ∧
    (∀ m, reachable vp p argv.length argv m → 1 ≤ m.pos ∧ m.pos ≤ argv.length) ∧
    parse vp p argv.length argv ≠ .error .out_of_range ∧
    parse vp p argv.length argv ≠ .error .out_of_fuel := by
  have hstep2 : ∀ m m1, m.pos < argv.length → parse_step vp p argv.length argv m = .ok m1 →
      m1.pos = m.pos + 1 ∨
      (m1.pos = m.pos + 2 ∧ is_valid_value argv.length argv (m.pos + 1) = .ok true ∧
        m.pos + 1 < argv.length) := by
    intro m m1 hlt hs
    rcases parse_step_safe vp p argv m hlt with ⟨e, he⟩ | ⟨m2, h1, h2⟩
    · rw [he] at hs
      cases hs
    · rw [h1] at hs
      cases hs
      rcases h2 with h2 | ⟨h2, h3⟩
      · exact Or.inl h2
      · exact Or.inr ⟨h2, h3, (is_valid_value_true argv (m.pos + 1) h3).1⟩
  have hloop : ∀ fuel, argv.length - 1 ≤ fuel →
      (∃ e, parse_loop vp p argv.length argv fuel machine.init = .error (.thrown e)) ∨
      (∃ m, parse_loop vp p argv.length argv fuel machine.init = .ok m ∧
        m.pos = argv.length) :=
    fun fuel hfuel => parse_loop_safe vp p argv fuel machine.init hargc hfuel
  have hparse : (∃ e, parse vp p argv.length argv = .error (.thrown e)) ∨
      (∃ s, parse vp p argv.length argv = .ok s) := by
    rcases hloop (argv.length + 1) (by omega) with ⟨e, he⟩ | ⟨m, hm, _⟩
    · exact Or.inl ⟨e, by simp [parse, parse_machine, he]⟩
    · simp only [parse, parse_machine, hm]
      cases hc : check_arguments m.state with
      | ok u => exact Or.inr ⟨m.state, rfl⟩
      | error f =>
        left
        unfold check_arguments at hc
        cases hcmd : m.state.cmd with
        | none => simp [hcmd] at hc
        | some c =>
          simp only [hcmd] at hc
          split at hc
          · split at hc
            · cases hc
              exact ⟨_, rfl⟩
            · cases hc
          · cases hc
  refine ⟨hloop, hstep2, ?_, ?_, ?_, ?_⟩
  · intro m hlt
    rcases parse_step_safe vp p argv m hlt with ⟨e, he⟩ | ⟨m2, h1, _⟩
    · rw [he]
      exact ⟨by simp, by simp⟩
    · rw [h1]
      exact ⟨by simp, by simp⟩
  · intro m hr
    induction hr with
    | start => exact ⟨Nat.le_refl _, hargc⟩
    | next m0 m1 _ hne hs ih =>
      have hlt : m0.pos < argv.length := by omega
      rcases hstep2 m0 m1 hlt hs with h | ⟨h, _, h3⟩ <;> omega
  · rcases hparse with ⟨e, he⟩ | ⟨s, hs⟩
    · rw [he]
      simp
    · rw [hs]
      simp
  · rcases hparse with ⟨e, he⟩ | ⟨s, hs⟩
    · rw [he]
      simp
    · rw [hs]
      simp

/-- Witness for claim C19: the four tokens `prog play --log-level debug` are
consumed in two iterations, the second moving the cursor by two. -/
theorem parse_loop_terminates_in_range_witness :
    (∃ e, parse_loop accept_all example_registry 4
        ["prog".toList, "play".toList, "--log-level".toList, "debug".toList] 3 machine.init
        = .error (.thrown e)) ∨
    (∃ m, parse_loop accept_all example_registry 4
        ["prog".toList, "play".toList, "--log-level".toList, "debug".toList] 3 machine.init
        = .ok m ∧ m.pos = 4) :=
  (parse_loop_terminates_in_range accept_all example_registry
    ["prog".toList, "play".toList, "--log-level".toList, "debug".toList] (by decide)).1 3
    (by decide)

/-! ### Invariant of the reachable machines (claim C20) -/

/-- A completed iteration keeps an active command. -/
theorem parse_step_keeps_command (m m1 : machine) (c : command)
    (hc : m.state.cmd = some c) (hs : parse_step vp p argc argv m = .ok m1) :
    m1.state.cmd = some c := by
  rcases (parse_step_frame vp p argc argv m m1 hs).2 with
    ⟨h1, _, _⟩ | ⟨t, _, _, ⟨h1, _⟩ | ⟨c1, h1, h2, _⟩⟩
  · rw [h1]
    exact hc
  · rw [hc] at h1
    cases h1
  · rw [hc] at h1
    cases h1
    exact h2

theorem later_keeps_command (m m2 : machine) (c : command)
    (hc : m.state.cmd = some c) (h : later vp p argc argv m m2) :
    m2.state.cmd = some c := by
  induction h with
  | here => exact hc
  | next m1 m3 _ _ hs ih => exact parse_step_keeps_command vp p argc argv m1 m3 c ih hs

/-- Bounds on the argument count in the machines a parse reaches. -/
theorem reachable_args_bound (m : machine) (h : reachable vp p argc argv m) :
    ∀ c, m.state.cmd = some c →
      m.state.args_set ≤ c.arguments.length ∧
      (m.state.extra_arguments ≠ [] → m.state.args_set = c.arguments.length) := by
  induction h with
  | start =>
    intro c hc
    cases hc
  | next m0 m1 hr _ hs ih =>
    intro c hc
    have hinv := reachable_invariant vp p argc argv m0 hr
    rcases (parse_step_frame vp p argc argv m0 m1 hs).2 with
      ⟨h1, h2, h3⟩ | ⟨t, _, _, ⟨h1, _, h3, h4⟩ | ⟨c1, h1, h2, hcase⟩⟩
    · rw [h2, h3]
      exact ih c (h1 ▸ hc)
    · obtain ⟨ha, he⟩ := hinv.2.1 h1
      rw [h3, h4, ha, he]
      exact ⟨Nat.zero_le _, fun hne => absurd rfl hne⟩
    · have hcc : c1 = c := by
        rw [h2] at hc
        exact Option.some.inj hc
      subst hcc
      obtain ⟨hb, hfull⟩ := ih c1 h1
      have hmem := (hinv.2.2 c1 h1).1
      rcases hcase with ⟨hor, ha, _⟩ | ⟨hlt, _, ha, he⟩
      · have hge : c1.arguments.length ≤ m0.state.args_set := by
          rcases hor with hnil | hge
          · rw [hnil] at hmem
            cases hmem
          · exact hge
        rw [ha]
        exact ⟨hb, fun _ => Nat.le_antisymm hb hge⟩
      · rw [ha, he]
        refine ⟨hlt, fun hne => ?_⟩
        have := hfull hne
        omega

/-- Claim C20: every machine a parse reaches satisfies: without selected
command the argument count is 0 and the leftover list is empty; a selected
command is one of the commands of the registry, the argument count is at most
the number of its declared arguments, and a non-empty leftover list implies
that the count equals that number; and a selected command stays selected
through every later iteration. -/
theorem reachable_state_invariant (vp : Nat → Str → Bool) (p : parser) (argc : Nat)
    (argv : List Str) (m : machine) (h : reachable vp p argc argv m) :
    (m.state.cmd = none → m.state.args_set = 0 ∧ m.state.extra_arguments = []) ∧
    (∀ c, m.state.cmd = some c →
      c ∈ p.commands ∧ m.state.args_set ≤ c.arguments.length ∧
      (m.state.extra_arguments ≠ [] → m.state.args_set = c.arguments.length)) ∧
    (∀ c m2, m.state.cmd = some c → later vp p argc argv m m2 →
      m2.state.cmd = some c) := by
  have hinv := reachable_invariant vp p argc argv m h
  refine ⟨hinv.2.1, ?_, ?_⟩
  · intro c hc
    obtain ⟨h1, h2⟩ := reachable_args_bound vp p argc argv m h c hc
    exact ⟨(hinv.2.2 c hc).1, h1, h2⟩
  · intro c m2 hc hl
    exact later_keeps_command vp p argc argv m m2 c hc hl

/-- Witness for claim C20 on the registry of `example.cpp` and the tokens
`prog play play`: after the first `play` the command is selected with no
argument counted and nothing left over, and the second `play` is taken as an
argument and leaves the command selected. -/
theorem reachable_state_invariant_witness :
    (play_command ∈ example_registry.commands ∧
      (0 : Nat) ≤ play_command.arguments.length ∧
      (([] : List Str) ≠ [] → (0 : Nat) = play_command.arguments.length)) ∧
    (⟨⟨1, some play_command, [("game directory".toList, game_directory)], []⟩, 3,
        [(3, "play".toList)]⟩ : machine).state.cmd = some play_command :=
  ⟨(reachable_state_invariant accept_all example_registry 3
      ["prog".toList, "play".toList, "play".toList]
      ⟨⟨0, some play_command, [], []⟩, 2, []⟩
      (reachable.next machine.init _ reachable.start (by decide) (by decide))).2.1
      play_command rfl,
   (reachable_state_invariant accept_all example_registry 3
      ["prog".toList, "play".toList, "play".toList]
      ⟨⟨0, some play_command, [], []⟩, 2, []⟩
      (reachable.next machine.init _ reachable.start (by decide) (by decide))).2.2
      play_command
      ⟨⟨1, some play_command, [("game directory".toList, game_directory)], []⟩, 3,
        [(3, "play".toList)]⟩ rfl
      (later.next _ _ later.here (by decide) (by decide))⟩

end excmd
